import Mathlib

/-!
Verification of the zpars compression subsystem: a shallow embedding of the
ZPS1 LZ77 block codec with its stream framing (src/codec.rs) and of the ZPAQ
archive scanner / unmodeled-segment extractor (src/zpaq.rs), together with
theorems settling the specification claims.

Bytes are modelled as `Nat` values (`u8` values are < 256 by construction in
the Rust source; where the source casts a wider integer to a narrower one the
embedding takes the value mod 2^width explicitly).  Loops of the source are
modelled as structurally recursive functions on an explicit iteration bound
(`fuel`); every loop of the source makes progress on each iteration (the
cursor strictly advances), so a bound derived from the input length is always
sufficient, and the top-level wrappers instantiate such a bound.
-/

namespace Zpars

/-- Error type mirroring `ZparsError` of src/error.rs.  The `Io` variant of
the source carries an `std::io::Error`; here it is a bare constructor since
the only I/O failures reachable through the embedded code are short reads. -/
inductive ZparsError : Type where
  | IoErr : ZparsError
  | InvalidFormat : String → ZparsError
  | Corrupt : String → ZparsError
  | UnsupportedVersion : Nat → ZparsError
  | InvalidOption : String → ZparsError
deriving DecidableEq, Repr

/-- `CompressionOptions` of src/codec.rs.  `block_size`, `min_match`,
`secondary_match` are `usize`; `search_log`, `table_log` are `u8`. -/
structure CompressionOptions : Type where
  blockSize : Nat
  minMatch : Nat
  secondaryMatch : Nat
  searchLog : Nat
  tableLog : Nat
deriving DecidableEq, Repr

/-- `validate_options` (src/codec.rs:171-188). -/
def validateOptions (o : CompressionOptions) : Except ZparsError Unit :=
  if o.minMatch = 0 ∨ 64 < o.minMatch then
    .error (.InvalidOption "min-match must be 1..=64")
  else if 64 < o.secondaryMatch then
    .error (.InvalidOption "secondary-match must be 0..=64")
  else if o.blockSize = 0 then
    .error (.InvalidOption "block-size must be > 0")
  else if 10 < o.searchLog then
    .error (.InvalidOption "search-log must be <= 10")
  else if o.tableLog < 8 ∨ 28 < o.tableLog then
    .error (.InvalidOption "table-log must be 8..=28")
  else .ok ()

/-- The four little-endian bytes of a `u32` value (`u32::to_le_bytes`). -/
def le4 (v : Nat) : List Nat :=
  [v % 256, v / 256 % 256, v / 65536 % 256, v / 16777216 % 256]

/-- `u32::from_le_bytes` on four byte values. -/
def fromLE4 (a b c d : Nat) : Nat :=
  a + 256 * b + 65536 * c + 16777216 * d

/-- `write_stream_header` (src/codec.rs:115-124): magic "ZPS1", version 1,
`block_size as u32` little-endian, then `min_match as u8`,
`secondary_match as u8`, `search_log`, `table_log`.  The `as u32` / `as u8`
casts truncate, hence the explicit mods. -/
def streamHeaderBytes (o : CompressionOptions) : List Nat :=
  [90, 80, 83, 49, 1] ++ le4 (o.blockSize % 4294967296) ++
    [o.minMatch % 256, o.secondaryMatch % 256, o.searchLog, o.tableLog]

/-- `read_stream_header` (src/codec.rs:126-154).  Returns the decoded options
and the unread remainder of the stream.  Each short `read_exact` surfaces as
an I/O error; the source performs the reads in the order magic, version,
block_size, fields, so a stream shorter than 13 bytes fails with `IoErr`
unless an earlier magic/version check fails first. -/
def readStreamHeader (s : List Nat) : Except ZparsError (CompressionOptions × List Nat) :=
  if s.length < 4 then .error .IoErr
  else if s.take 4 ≠ [90, 80, 83, 49] then .error (.InvalidFormat "bad magic")
  else if s.length < 5 then .error .IoErr
  else if s.getD 4 0 ≠ 1 then .error (.UnsupportedVersion (s.getD 4 0))
  else if s.length < 13 then .error .IoErr
  else
    let o : CompressionOptions :=
      { blockSize := fromLE4 (s.getD 5 0) (s.getD 6 0) (s.getD 7 0) (s.getD 8 0)
        minMatch := s.getD 9 0
        secondaryMatch := s.getD 10 0
        searchLog := s.getD 11 0
        tableLog := s.getD 12 0 }
    match validateOptions o with
    | .error e => .error e
    | .ok _ => .ok (o, s.drop 13)

theorem le4_fromLE4 (v : Nat) (h : v < 4294967296) :
    fromLE4 (v % 256) (v / 256 % 256) (v / 65536 % 256) (v / 16777216 % 256) = v := by
  unfold fromLE4
  omega

/-- The bounds that a successful `validate_options` guarantees. -/
theorem validateOptions_bounds (o : CompressionOptions)
    (hv : validateOptions o = .ok ()) :
    1 ≤ o.minMatch ∧ o.minMatch ≤ 64 ∧ o.secondaryMatch ≤ 64 ∧
      1 ≤ o.blockSize ∧ o.searchLog ≤ 10 ∧ 8 ≤ o.tableLog ∧ o.tableLog ≤ 28 := by
  unfold validateOptions at hv
  split at hv <;> try exact Except.noConfusion hv
  split at hv <;> try exact Except.noConfusion hv
  split at hv <;> try exact Except.noConfusion hv
  split at hv <;> try exact Except.noConfusion hv
  split at hv <;> try exact Except.noConfusion hv
  omega

/-- Core header round-trip: for options that validate and whose `block_size`
fits in 32 bits, reading back a written stream header recovers the options
exactly and leaves the rest of the stream untouched. -/
theorem readStreamHeader_append (o : CompressionOptions) (rest : List Nat)
    (hv : validateOptions o = .ok ()) (hbs : o.blockSize < 4294967296) :
    readStreamHeader (streamHeaderBytes o ++ rest) = .ok (o, rest) := by
  obtain ⟨_, hmm, hsm, _, _, _, _⟩ := validateOptions_bounds o hv
  have hb : o.blockSize % 4294967296 = o.blockSize := Nat.mod_eq_of_lt hbs
  have hm : o.minMatch % 256 = o.minMatch := Nat.mod_eq_of_lt (by omega)
  have hs : o.secondaryMatch % 256 = o.secondaryMatch := Nat.mod_eq_of_lt (by omega)
  simp only [streamHeaderBytes, le4, hb, hm, hs]
  simp only [readStreamHeader, List.cons_append, List.nil_append, List.length_cons,
    List.take_succ_cons, List.take_zero, List.getD_cons_succ, List.getD_cons_zero,
    List.drop_succ_cons, List.drop_zero]
  rw [if_neg (by omega), if_neg (by simp), if_neg (by omega), if_neg (by simp),
    if_neg (by omega)]
  rw [le4_fromLE4 o.blockSize hbs]
  simp only [hv]

/-- Claim C2 (counterexample): the options with `block_size = 2^32` pass
validation, yet reading back their written stream header does not recover
them — the `block_size as u32` cast in `write_stream_header` truncates the
field to 0, so `read_stream_header` fails validation instead. -/
theorem c2_counterexample :
    validateOptions ⟨4294967296, 1, 0, 0, 8⟩ = .ok () ∧
      readStreamHeader (streamHeaderBytes ⟨4294967296, 1, 0, 0, 8⟩) =
        .error (.InvalidOption "block-size must be > 0") := by
  exact ⟨rfl, rfl⟩

/-- Claim C2 (amended): for every compression options value that passes
validation and whose `block_size` fits in 32 bits, reading the stream header
written by `write_stream_header` recovers options equal to the ones passed in
(same block_size, min_match, secondary_match, search_log, table_log), leaving
any following stream bytes unread. -/
theorem c2_header_echo (o : CompressionOptions) (rest : List Nat)
    (hv : validateOptions o = .ok ()) (hbs : o.blockSize < 4294967296) :
    readStreamHeader (streamHeaderBytes o ++ rest) = .ok (o, rest) :=
  readStreamHeader_append o rest hv hbs

/-- Witness for C2: the default options round-trip through the header. -/
theorem c2_header_echo_witness :
    readStreamHeader (streamHeaderBytes ⟨1048576, 4, 0, 3, 20⟩ ++ [7, 7]) =
      .ok (⟨1048576, 4, 0, 3, 20⟩, [7, 7]) :=
  c2_header_echo ⟨1048576, 4, 0, 3, 20⟩ [7, 7] rfl (by decide)

/-- One step of `hash_slice` (src/codec.rs:425-433): `x ^= b as u32;
x = x.wrapping_mul(0x85EBCA6B); x ^= x >> 13`, all in `u32`. -/
def hashStep (x b : Nat) : Nat :=
  let y := (x ^^^ b % 4294967296) * 2246822507 % 4294967296
  y ^^^ y >>> 13

/-- `hash_slice` (src/codec.rs:425-433): fold `hashStep` over the slice,
starting from the golden-ratio constant 0x9E3779B9. -/
def hashSlice (s : List Nat) : Nat := s.foldl hashStep 2654435769

/-- `SearchContext` (src/codec.rs:317-321). -/
structure SearchContext : Type where
  minMatch : Nat
  bucket : Nat
  mask : Nat

/-- Forward byte comparison of `search_candidates` (src/codec.rs:347-351):
the length of the longest common run `input[p..]` vs `input[i..]`, capped at
`cap`.  All reads are in bounds in the source; `getD` is the total rendering
of slice indexing. -/
def matchLen (input : List Nat) : Nat → Nat → Nat → Nat
  | _, _, 0 => 0
  | p, i, cap + 1 =>
    if input.getD p 0 = input.getD i 0 then matchLen input (p + 1) (i + 1) cap + 1 else 0

/-- The best-candidate update of `search_candidates` (src/codec.rs:353-356):
`if len > *best_len || (len == *best_len && off < *best_off) { replace }`.
Longer length wins; on equal length the smaller offset wins; otherwise the
current best is kept. -/
def pickBest (best cand : Nat × Nat) : Nat × Nat :=
  if best.1 < cand.1 ∨ (cand.1 = best.1 ∧ cand.2 < best.2) then cand else best

/-- One probe of `search_candidates` (src/codec.rs:332-357): reject an empty
slot, a stale position `p ≥ i`, or an offset above `2^24 - 1`; otherwise
measure the match by byte comparison and run the best-candidate update. -/
def searchStep (input : List Nat) (i mm : Nat) (best : Nat × Nat) (p1 : Nat) :
    Nat × Nat :=
  if p1 = 0 then best
  else
    let p := p1 - 1
    if i ≤ p then best
    else
      let off := i - p
      if 16777215 < off then best
      else
        let len := matchLen input p i (min (input.length - i) (255 + mm))
        pickBest best (len, off)

/-- The probe loop of `search_candidates` (src/codec.rs:332-361): for
`k ∈ [0, bucket]` probe slot `(hash ^ k) & mask`, updating the best
candidate, and break once `best_len ≥ min_match + 63`.  `steps` counts the
remaining iterations. -/
def searchLoop (input : List Nat) (i : Nat) (table : List Nat) (hash : Nat)
    (sc : SearchContext) : Nat → Nat → Nat × Nat → Nat × Nat
  | _, 0, best => best
  | k, steps + 1, best =>
    let b := searchStep input i sc.minMatch best (table.getD ((hash ^^^ k) &&& sc.mask) 0)
    if sc.minMatch + 63 ≤ b.1 then b else searchLoop input i table hash sc (k + 1) steps b

/-- `search_candidates` (src/codec.rs:323-362). -/
def searchCandidates (input : List Nat) (i : Nat) (best : Nat × Nat)
    (table : List Nat) (hash : Nat) (sc : SearchContext) : Nat × Nat :=
  searchLoop input i table hash sc 0 (sc.bucket + 1) best

/-- `update_tables` (src/codec.rs:364-383): store `pos + 1` (as `u32`) into
the primary table under the `min_match`-byte hash, and, when the secondary
table is active and in range, under the `secondary_match`-byte hash. -/
def updateTables (input : List Nat) (o : CompressionOptions) (pos : Nat)
    (h1 : List Nat) (h2 : Option (List Nat)) : List Nat × Option (List Nat) :=
  let h1' :=
    if pos + o.minMatch ≤ input.length then
      h1.set (hashSlice ((input.drop pos).take o.minMatch) &&& (h1.length - 1))
        ((pos + 1) % 4294967296)
    else h1
  let h2' :=
    match h2 with
    | none => none
    | some t =>
      if 0 < o.secondaryMatch ∧ pos + o.secondaryMatch ≤ input.length then
        some (t.set (hashSlice ((input.drop pos).take o.secondaryMatch) &&& (t.length - 1))
          ((pos + 1) % 4294967296))
      else some t
  (h1', h2')

/-- The per-emit table refresh of `encode_lz77_block` (src/codec.rs:245-247):
update both tables for every position in `i..min(i+len, input.len())`;
`count` is the number of positions remaining. -/
def updateRange (input : List Nat) (o : CompressionOptions) :
    Nat → Nat → List Nat → Option (List Nat) → List Nat × Option (List Nat)
  | _, 0, h1, h2 => (h1, h2)
  | pos, c + 1, h1, h2 =>
    let t := updateTables input o pos h1 h2
    updateRange input o (pos + 1) c t.1 t.2

/-- `emit_literals` (src/codec.rs:385-393): chunks of at most 64 literals,
each preceded by a lead byte `chunk - 1`.  `fuel` bounds the number of
chunks; `lits.length` chunks always suffice. -/
def emitLitsFuel : Nat → List Nat → List Nat → List Nat
  | _, out, [] => out
  | 0, out, _ => out
  | f + 1, out, l :: ls =>
    let lits := l :: ls
    let chunk := min 64 lits.length
    emitLitsFuel f (out ++ (chunk - 1) :: lits.take chunk) (lits.drop chunk)

/-- `emit_literals` with its sufficient chunk bound. -/
def emitLiterals (out lits : List Nat) : List Nat := emitLitsFuel lits.length out lits

/-- The offset-byte count chosen by `emit_match_tokens` (src/codec.rs:397-403)
from `off_m1 = off - 1`. -/
def offBytesFor (offM1 : Nat) : Nat :=
  if offM1 < 65536 then 2 else if offM1 < 16777216 then 3 else 4

/-- The `k` big-endian bytes that `emit_match_tokens` pushes for a value
(src/codec.rs:417-419): `(v >> (shift*8)) & 0xff` for `shift = k-1, ..., 0`. -/
def beBytes (k v : Nat) : List Nat :=
  (List.range k).reverse.map (fun s => v >>> (s * 8) % 256)

/-- One token pushed by `emit_match_tokens` (src/codec.rs:414-419): lead byte
`((off_bytes - 1) << 6) | ((len1 - min_match) as u8 & 0x3f)` followed by the
big-endian bytes of `off - 1`.  `(x as u8) & 0x3f` is `x % 64`; the source's
`usize` subtraction `len1 - min_match` never underflows at its call sites
(the emitted lengths always satisfy `len1 ≥ min_match`), so Nat subtraction
is a faithful rendering there. -/
def tokenBytes (off mm l : Nat) : List Nat :=
  let offM1 := off - 1
  let ob := offBytesFor offM1
  ((ob - 1) * 64 + (l - mm) % 64) :: beBytes ob offM1

/-- The token loop of `emit_match_tokens` (src/codec.rs:405-422): while
`len > 0`, cut `len1` by the split rule and push one token.  Every cut is at
least 1, so `len` iterations always suffice as fuel. -/
def emitMatchFuel : Nat → List Nat → Nat → Nat → Nat → List Nat
  | _, out, 0, _, _ => out
  | 0, out, _, _, _ => out
  | f + 1, out, len, off, mm =>
    let len1 := if mm * 2 + 63 < len then mm + 63
                else if mm + 63 < len then len - mm
                else len
    emitMatchFuel f (out ++ tokenBytes off mm len1) (len - len1) off mm

/-- `emit_match_tokens` (src/codec.rs:395-423). -/
def emitMatchTokens (out : List Nat) (len off mm : Nat) : List Nat :=
  emitMatchFuel len out len off mm

/-- The spec's split rule for long matches, as its own recursion: the list of
token lengths cut from a match of length `len` — while `len > min_match + 63`,
cut `min_match + 63` if `len > 2*min_match + 63`, else cut `len - min_match`,
else the whole remaining tail. -/
def splitLens (mm : Nat) : Nat → Nat → List Nat
  | _, 0 => []
  | 0, _ => []
  | f + 1, len =>
    let len1 := if mm * 2 + 63 < len then mm + 63
                else if mm + 63 < len then len - mm
                else len
    len1 :: splitLens mm f (len - len1)

/-- The candidate search of one `encode_lz77_block` iteration
(src/codec.rs:210-231): when at least `min_match` bytes remain, probe the
secondary table first (when active and in range) and then the primary table,
threading the best candidate through; otherwise no candidate. -/
def findBest (input : List Nat) (o : CompressionOptions) (sc : SearchContext)
    (i : Nat) (h1 : List Nat) (h2 : Option (List Nat)) : Nat × Nat :=
  if i + o.minMatch ≤ input.length then
    let b2 :=
      match h2 with
      | some t2 =>
        if i + o.secondaryMatch ≤ input.length then
          searchCandidates input i (0, 0) t2
            (hashSlice ((input.drop i).take o.secondaryMatch) &&& sc.mask) sc
        else (0, 0)
      | none => (0, 0)
    searchCandidates input i b2 h1
      (hashSlice ((input.drop i).take o.minMatch) &&& sc.mask) sc
  else (0, 0)

/-- The main loop of `encode_lz77_block` (src/codec.rs:209-254) plus the
final literal flush (src/codec.rs:256-258).  State: cursor `i`, start of the
pending literal run `litStart`, output so far `out`, and the two hash
tables.  `fuel` bounds the number of loop iterations; since every iteration
advances `i` by at least 1 whenever `min_match ≥ 1` (guaranteed by option
validation), `input.length` iterations suffice. -/
def encodeLoop (input : List Nat) (o : CompressionOptions) (sc : SearchContext) :
    Nat → Nat → Nat → List Nat → List Nat → Option (List Nat) → List Nat
  | 0, _, litStart, out, _, _ => emitLiterals out (input.drop litStart)
  | fuel + 1, i, litStart, out, h1, h2 =>
    if input.length ≤ i then emitLiterals out (input.drop litStart)
    else
      let best := findBest input o sc i h1 h2
      let extra := (if 65536 ≤ best.2 then 1 else 0) + (if 16777216 ≤ best.2 then 1 else 0)
      if best.2 ≠ 0 ∧ o.minMatch + extra ≤ best.1 then
        let out1 := emitLiterals out ((input.drop litStart).take (i - litStart))
        let out2 := emitMatchTokens out1 best.1 best.2 o.minMatch
        let t := updateRange input o i (min (i + best.1) input.length - i) h1 h2
        encodeLoop input o sc fuel (i + best.1) (i + best.1) out2 t.1 t.2
      else
        let t := updateTables input o i h1 h2
        encodeLoop input o sc fuel (i + 1) litStart out t.1 t.2

/-- `encode_lz77_block` (src/codec.rs:190-261): zeroed tables of size
`1 << table_log`, bucket `(1 << search_log) - 1`, mask `table_size - 1`, a
secondary table only when `secondary_match > 0`. -/
def encodeLzBlock (input : List Nat) (o : CompressionOptions) : List Nat :=
  let tableSize := 2 ^ o.tableLog
  let sc : SearchContext := ⟨o.minMatch, 2 ^ o.searchLog - 1, tableSize - 1⟩
  encodeLoop input o sc input.length 0 0 [] (List.replicate tableSize 0)
    (if 0 < o.secondaryMatch then some (List.replicate tableSize 0) else none)

/-- The byte-by-byte match copy of `decode_lz77_block` (src/codec.rs:303-307):
`for j in 0..len { out.push(out[start + j]) }`, reading from the growing
buffer so that self-overlapping matches expand correctly. -/
def matchCopy : List Nat → Nat → Nat → List Nat
  | out, _, 0 => out
  | out, start, l + 1 => matchCopy (out ++ [out.getD start 0]) (start + 1) l

/-- The big-endian accumulation of `decode_lz77_block` (src/codec.rs:291-295):
`off_m1 = (off_m1 << 8) | byte` over the offset bytes; for byte values the
shift-or is `a * 256 + b`. -/
def fromBE (l : List Nat) : Nat := l.foldl (fun a b => a * 256 + b) 0

/-- The token loop of `decode_lz77_block` (src/codec.rs:270-308).  One fuel
unit per token; since every token consumes at least the lead byte,
`inp.length` units always suffice. -/
def decodeLoop (mm : Nat) : Nat → List Nat → List Nat → Except ZparsError (List Nat)
  | _, [], out => .ok out
  | 0, _ :: _, _ => .error (.Corrupt "iteration bound exhausted")
  | f + 1, code :: rest, out =>
    let kind := code / 64
    let low := code % 64
    if kind = 0 then
      let litLen := low + 1
      if rest.length < litLen then .error (.Corrupt "literal run exceeds input")
      else decodeLoop mm f (rest.drop litLen) (out ++ rest.take litLen)
    else
      let offBytes := kind + 1
      if rest.length < offBytes then .error (.Corrupt "offset exceeds input")
      else
        let off := fromBE (rest.take offBytes) + 1
        let len := low + mm
        if off = 0 ∨ out.length < off then .error (.Corrupt "invalid match offset")
        else decodeLoop mm f (rest.drop offBytes) (matchCopy out (out.length - off) len)

/-- `decode_lz77_block` (src/codec.rs:263-315): run the token loop, then
check the decoded size against the block header's uncompressed length. -/
def decodeLzBlock (inp : List Nat) (expectedLen mm : Nat) :
    Except ZparsError (List Nat) :=
  match decodeLoop mm inp.length inp [] with
  | .error e => .error e
  | .ok out =>
    if out.length = expectedLen then .ok out
    else .error (.Corrupt "decoded size mismatch")

/-- The block loop of `compress` (src/codec.rs:47-80): read up to
`block_size` bytes, encode, frame with the two little-endian `u32` lengths
(`n as u32` and `encoded.len() as u32`, both truncating casts), and finish
with an all-zero terminator header.  A read of 0 bytes (empty remainder, or
`block_size = 0`) ends the loop.  Each non-final iteration consumes at least
one input byte, so `x.length` fuel always suffices. -/
def compressBlocks (o : CompressionOptions) : Nat → List Nat → List Nat
  | fuel, x =>
    let n := min o.blockSize x.length
    if n = 0 then le4 0 ++ le4 0
    else
      match fuel with
      | 0 => []
      | f + 1 =>
        let enc := encodeLzBlock (x.take n) o
        le4 (n % 4294967296) ++ le4 (enc.length % 4294967296) ++ enc ++
          compressBlocks o f (x.drop n)

/-- `compress` (src/codec.rs:39-82): validate the options, then emit the
stream header followed by the framed blocks. -/
def compress (x : List Nat) (o : CompressionOptions) : Except ZparsError (List Nat) :=
  match validateOptions o with
  | .error e => .error e
  | .ok _ => .ok (streamHeaderBytes o ++ compressBlocks o (x.length + 1) x)

/-- The block loop of `decompress` (src/codec.rs:90-111): read an 8-byte
block header (short read is an I/O error), stop on the all-zero terminator,
otherwise read the payload, decode it, and append.  Each non-terminator
iteration consumes at least 8 stream bytes, so `s.length` fuel suffices. -/
def decompressLoop (o : CompressionOptions) : Nat → List Nat → List Nat →
    Except ZparsError (List Nat)
  | fuel, s, acc =>
    if s.length < 8 then .error .IoErr
    else
      let ulen := fromLE4 (s.getD 0 0) (s.getD 1 0) (s.getD 2 0) (s.getD 3 0)
      let clen := fromLE4 (s.getD 4 0) (s.getD 5 0) (s.getD 6 0) (s.getD 7 0)
      if ulen = 0 ∧ clen = 0 then .ok acc
      else
        match fuel with
        | 0 => .error (.Corrupt "iteration bound exhausted")
        | f + 1 =>
          let s1 := s.drop 8
          if s1.length < clen then .error .IoErr
          else
            match decodeLzBlock (s1.take clen) ulen o.minMatch with
            | .error e => .error e
            | .ok dec => decompressLoop o f (s1.drop clen) (acc ++ dec)

/-- `decompress` (src/codec.rs:84-113): read and validate the stream header,
then decode the framed blocks until the terminator. -/
def decompress (s : List Nat) : Except ZparsError (List Nat) :=
  match readStreamHeader s with
  | .error e => .error e
  | .ok (o, rest) => decompressLoop o (rest.length + 1) rest []

instance {ε α : Type} [DecidableEq ε] [DecidableEq α] : DecidableEq (Except ε α) :=
  fun a b =>
    match a, b with
    | .error e, .error f => decidable_of_iff (e = f) (by simp)
    | .ok x, .ok y => decidable_of_iff (x = y) (by simp)
    | .error _, .ok _ => isFalse fun h => Except.noConfusion h
    | .ok _, .error _ => isFalse fun h => Except.noConfusion h

theorem beBytes_succ (k v : Nat) :
    beBytes (k + 1) v = v >>> (k * 8) % 256 :: beBytes k v := by
  simp [beBytes, List.range_succ]

theorem beBytes_length (k v : Nat) : (beBytes k v).length = k := by
  simp [beBytes]

theorem fromBE_aux (k v : Nat) :
    ∀ a, (beBytes k v).foldl (fun x y => x * 256 + y) a = a * 2 ^ (k * 8) + v % 2 ^ (k * 8) := by
  induction k with
  | zero => intro a; simp [beBytes, Nat.mod_one]
  | succ k ih =>
    intro a
    rw [beBytes_succ]
    simp only [List.foldl_cons]
    rw [ih]
    rw [Nat.shiftRight_eq_div_pow]
    have hm : v % 2 ^ ((k + 1) * 8) = v % 2 ^ (k * 8) + 2 ^ (k * 8) * (v / 2 ^ (k * 8) % 256) := by
      rw [show (k + 1) * 8 = k * 8 + 8 by ring, pow_add]
      exact Nat.mod_mul
    rw [hm, show (k + 1) * 8 = k * 8 + 8 by ring, pow_add]
    ring

theorem fromBE_beBytes (k v : Nat) (h : v < 2 ^ (k * 8)) : fromBE (beBytes k v) = v := by
  unfold fromBE
  rw [fromBE_aux]
  simp [Nat.mod_eq_of_lt h]

theorem emitLitsFuel_append (f : Nat) :
    ∀ lits o1 o2, emitLitsFuel f (o1 ++ o2) lits = o1 ++ emitLitsFuel f o2 lits := by
  induction f with
  | zero => intro lits o1 o2; cases lits <;> simp [emitLitsFuel]
  | succ f ih =>
    intro lits o1 o2
    cases lits with
    | nil => simp [emitLitsFuel]
    | cons l ls =>
      simp only [emitLitsFuel]
      rw [List.append_assoc]
      exact ih _ o1 _

theorem emitLiterals_append (o1 o2 lits : List Nat) :
    emitLiterals (o1 ++ o2) lits = o1 ++ emitLiterals o2 lits :=
  emitLitsFuel_append _ lits o1 o2

theorem emitMatchFuel_append (f : Nat) :
    ∀ len off mm o1 o2, emitMatchFuel f (o1 ++ o2) len off mm = o1 ++ emitMatchFuel f o2 len off mm := by
  induction f with
  | zero => intro len off mm o1 o2; cases len <;> simp [emitMatchFuel]
  | succ f ih =>
    intro len off mm o1 o2
    cases len with
    | zero => simp [emitMatchFuel]
    | succ n =>
      simp only [emitMatchFuel]
      rw [List.append_assoc]
      exact ih _ off mm o1 _

theorem emitMatchFuel_out (f len off mm : Nat) (out : List Nat) :
    emitMatchFuel f out len off mm = out ++ emitMatchFuel f [] len off mm := by
  conv_lhs => rw [show out = out ++ ([] : List Nat) by simp]
  rw [emitMatchFuel_append]

theorem emitLitsFuel_out (f : Nat) (lits out : List Nat) :
    emitLitsFuel f out lits = out ++ emitLitsFuel f [] lits := by
  conv_lhs => rw [show out = out ++ ([] : List Nat) by simp]
  rw [emitLitsFuel_append]

theorem emitMatchFuel_eq (off mm : Nat) :
    ∀ f len, emitMatchFuel f [] len off mm = (splitLens mm f len).flatMap (tokenBytes off mm) := by
  intro f
  induction f with
  | zero => intro len; cases len <;> simp [emitMatchFuel, splitLens]
  | succ f ih =>
    intro len
    cases len with
    | zero => simp [emitMatchFuel, splitLens]
    | succ n =>
      simp only [emitMatchFuel, splitLens, List.flatMap_cons, List.nil_append]
      rw [emitMatchFuel_out, ih]

theorem emitMatchTokens_eq (out : List Nat) (len off mm : Nat) :
    emitMatchTokens out len off mm = out ++ (splitLens mm len len).flatMap (tokenBytes off mm) := by
  unfold emitMatchTokens
  rw [emitMatchFuel_out, emitMatchFuel_eq]

/-- The facts about one split step: for validated `min_match` bounds, each
cut is between `min_match` and `min_match + 63` and the remainder is either
empty or at least `min_match` long. -/
theorem splitLens_props (mm : Nat) (hm1 : 1 ≤ mm) (hm64 : mm ≤ 64) :
    ∀ f len, len ≤ f → (len = 0 ∨ mm ≤ len) →
      (splitLens mm f len).sum = len ∧ ∀ l ∈ splitLens mm f len, mm ≤ l ∧ l ≤ mm + 63 := by
  intro f
  induction f with
  | zero =>
    intro len hf hc
    have : len = 0 := by omega
    subst this
    simp [splitLens]
  | succ f ih =>
    intro len hf hc
    cases len with
    | zero => simp [splitLens]
    | succ n =>
      have hlen : mm ≤ n + 1 := by omega
      simp only [splitLens]
      split_ifs with h1 h2
      · have hrem := ih (n + 1 - (mm + 63)) (by omega) (Or.inr (by omega))
        refine ⟨by rw [List.sum_cons, hrem.1]; omega, ?_⟩
        intro l hl
        rcases List.mem_cons.mp hl with rfl | hl
        · omega
        · exact hrem.2 l hl
      · have hrem := ih (n + 1 - (n + 1 - mm)) (by omega) (Or.inr (by omega))
        refine ⟨by rw [List.sum_cons, hrem.1]; omega, ?_⟩
        intro l hl
        rcases List.mem_cons.mp hl with rfl | hl
        · omega
        · exact hrem.2 l hl
      · have hrem := ih (n + 1 - (n + 1)) (by omega) (Or.inl (by omega))
        refine ⟨by rw [List.sum_cons, hrem.1]; omega, ?_⟩
        intro l hl
        rcases List.mem_cons.mp hl with rfl | hl
        · omega
        · exact hrem.2 l hl

theorem matchCopy_length : ∀ l out s, (matchCopy out s l).length = out.length + l := by
  intro l
  induction l with
  | zero => intro out s; simp [matchCopy]
  | succ l ih =>
    intro out s
    simp only [matchCopy]
    rw [ih]
    simp
    omega

theorem matchCopy_getD_lt : ∀ l out s k, k < out.length →
    (matchCopy out s l).getD k 0 = out.getD k 0 := by
  intro l
  induction l with
  | zero => intro out s k _; simp [matchCopy]
  | succ l ih =>
    intro out s k hk
    simp only [matchCopy]
    rw [ih _ _ k (by simp; omega)]
    exact List.getD_append _ _ _ _ hk

theorem matchCopy_overlap : ∀ l out s, s < out.length → ∀ j, j < l →
    (matchCopy out s l).getD (out.length + j) 0 = (matchCopy out s l).getD (s + j) 0 := by
  intro l
  induction l with
  | zero => intro out s _ j hj; omega
  | succ l ih =>
    intro out s hs j hj
    simp only [matchCopy]
    cases j with
    | zero =>
      rw [matchCopy_getD_lt l _ _ (out.length + 0) (by simp),
        matchCopy_getD_lt l _ _ (s + 0) (by simp; omega)]
      rw [show out.length + 0 = out.length from rfl, show s + 0 = s from rfl]
      rw [List.getD_append_right _ _ _ _ (le_refl _), List.getD_append _ _ _ _ hs]
      simp
    | succ j =>
      have h1 : out.length + (j + 1) = (out ++ [out.getD s 0]).length + j := by simp; omega
      have h2 : s + (j + 1) = (s + 1) + j := by omega
      rw [h1, h2]
      exact ih (out ++ [out.getD s 0]) (s + 1) (by simp; omega) j (by omega)

/-- Claim C3 (counterexample): the two high bits of a match token's lead byte
do not equal the number of offset bytes that follow.  The encoder emits, for
a match of length 4 at offset 1 with `min_match = 4`, the token `[64, 0, 0]`:
its lead byte has kind `64 >> 6 = 1` yet is followed by 2 offset bytes, and
the decoder rejects a kind-1 token followed by only 1 byte. -/
theorem c3_counterexample :
    emitMatchTokens [] 4 1 4 = [64, 0, 0] ∧
      (64 : Nat) / 64 = 1 ∧
      ([64, 0, 0] : List Nat).length - 1 = 2 ∧
      decodeLoop 4 2 [64, 0] [0] = .error (.Corrupt "offset exceeds input") ∧
      decodeLoop 4 3 [64, 0, 0] [0] = .ok [0, 0, 0, 0, 0] := by
  refine ⟨rfl, rfl, rfl, rfl, rfl⟩

/-- Claim C3 (amended): in the ZPS1 token stream, every match token's two
high bits encode a kind in 1..3, the token is followed by `kind + 1`
big-endian offset bytes encoding `offset - 1`, and the low 6 bits of the
lead byte encode `len - min_match ∈ [0, 63]`.  Stated over the emitter: a
match of length `len ≥ min_match` at offset `off` becomes a sequence of
such tokens whose lengths sum to `len`. -/
theorem c3_match_token_format (len off mm : Nat)
    (hm1 : 1 ≤ mm) (hm64 : mm ≤ 64) (hlen : mm ≤ len)
    (ho1 : 1 ≤ off) (ho : off ≤ 4294967296) :
    ∃ lens : List Nat,
      lens.sum = len ∧
      emitMatchTokens [] len off mm = lens.flatMap (tokenBytes off mm) ∧
      (offBytesFor (off - 1) - 1 = 1 ∨ offBytesFor (off - 1) - 1 = 2 ∨
        offBytesFor (off - 1) - 1 = 3) ∧
      (beBytes (offBytesFor (off - 1)) (off - 1)).length = (offBytesFor (off - 1) - 1) + 1 ∧
      fromBE (beBytes (offBytesFor (off - 1)) (off - 1)) = off - 1 ∧
      ∀ l ∈ lens, mm ≤ l ∧ l - mm ≤ 63 ∧
        ((offBytesFor (off - 1) - 1) * 64 + (l - mm) % 64) / 64 = offBytesFor (off - 1) - 1 ∧
        ((offBytesFor (off - 1) - 1) * 64 + (l - mm) % 64) % 64 = l - mm := by
  have hsp := splitLens_props mm hm1 hm64 len len (le_refl len) (Or.inr hlen)
  have hob : offBytesFor (off - 1) = 2 ∨ offBytesFor (off - 1) = 3 ∨ offBytesFor (off - 1) = 4 := by
    unfold offBytesFor
    split_ifs <;> simp
  refine ⟨splitLens mm len len, hsp.1, emitMatchTokens_eq [] len off mm, ?_, ?_, ?_, ?_⟩
  · rcases hob with h | h | h <;> rw [h] <;> simp
  · rw [beBytes_length]; omega
  · apply fromBE_beBytes
    unfold offBytesFor
    split_ifs with h1 h2
    · calc off - 1 < 65536 := h1
        _ ≤ 2 ^ (2 * 8) := by norm_num
    · calc off - 1 < 16777216 := h2
        _ ≤ 2 ^ (3 * 8) := by norm_num
    · calc off - 1 < 4294967296 := by omega
        _ ≤ 2 ^ (4 * 8) := by norm_num
  · intro l hl
    have hb := hsp.2 l hl
    have h63 : l - mm ≤ 63 := by omega
    have h64 : (l - mm) % 64 = l - mm := Nat.mod_eq_of_lt (by omega)
    refine ⟨hb.1, h63, ?_, ?_⟩
    · rw [h64]; omega
    · rw [h64]; omega

/-- Witness for the amended C3 at `len = 4, off = 9, min_match = 1`. -/
theorem c3_match_token_format_witness :
    ∃ lens : List Nat,
      lens.sum = 4 ∧
      emitMatchTokens [] 4 9 1 = lens.flatMap (tokenBytes 9 1) ∧
      (offBytesFor (9 - 1) - 1 = 1 ∨ offBytesFor (9 - 1) - 1 = 2 ∨
        offBytesFor (9 - 1) - 1 = 3) ∧
      (beBytes (offBytesFor (9 - 1)) (9 - 1)).length = (offBytesFor (9 - 1) - 1) + 1 ∧
      fromBE (beBytes (offBytesFor (9 - 1)) (9 - 1)) = 9 - 1 ∧
      ∀ l ∈ lens, 1 ≤ l ∧ l - 1 ≤ 63 ∧
        ((offBytesFor (9 - 1) - 1) * 64 + (l - 1) % 64) / 64 = offBytesFor (9 - 1) - 1 ∧
        ((offBytesFor (9 - 1) - 1) * 64 + (l - 1) % 64) % 64 = l - 1 :=
  c3_match_token_format 4 9 1 (by decide) (by decide) (by decide) (by decide) (by decide)

/-- Claim C4: in `decode_lz77_block`, a match token whose offset is 0 or
exceeds the output produced so far fails with `Corrupt` (in particular an
offset equal to `output_len + 1` is rejected); an accepted offset copies
`len` bytes byte-by-byte from `output[out_len - off ..]`, so each appended
byte equals the byte `off` positions earlier in the (growing) output and
self-overlapping matches expand correctly. -/
theorem c4_decoder_offset_check (mm f code : Nat) (rest out : List Nat) (off L : Nat)
    (hk : code / 64 ≠ 0) (hb : code / 64 + 1 ≤ rest.length)
    (hoff : off = fromBE (rest.take (code / 64 + 1)) + 1) (hL : L = code % 64 + mm) :
    ((off = 0 ∨ out.length < off) →
      decodeLoop mm (f + 1) (code :: rest) out = .error (.Corrupt "invalid match offset")) ∧
    (off = out.length + 1 →
      decodeLoop mm (f + 1) (code :: rest) out = .error (.Corrupt "invalid match offset")) ∧
    (off ≤ out.length →
      decodeLoop mm (f + 1) (code :: rest) out =
        decodeLoop mm f (rest.drop (code / 64 + 1)) (matchCopy out (out.length - off) L) ∧
      (matchCopy out (out.length - off) L).length = out.length + L ∧
      ∀ j < L, (matchCopy out (out.length - off) L).getD (out.length + j) 0 =
        (matchCopy out (out.length - off) L).getD (out.length - off + j) 0) := by
  have hstep : decodeLoop mm (f + 1) (code :: rest) out =
      if rest.length < code / 64 + 1 then .error (.Corrupt "offset exceeds input")
      else if fromBE (rest.take (code / 64 + 1)) + 1 = 0 ∨
          out.length < fromBE (rest.take (code / 64 + 1)) + 1 then
        .error (.Corrupt "invalid match offset")
      else decodeLoop mm f (rest.drop (code / 64 + 1))
        (matchCopy out (out.length - (fromBE (rest.take (code / 64 + 1)) + 1)) (code % 64 + mm)) := by
    simp only [decodeLoop, if_neg hk]
  rw [if_neg (by omega)] at hstep
  refine ⟨?_, ?_, ?_⟩
  · intro h
    rw [hstep, if_pos (by omega)]
  · intro h
    rw [hstep, if_pos (by omega)]
  · intro h
    have hne : ¬ (fromBE (rest.take (code / 64 + 1)) + 1 = 0 ∨
        out.length < fromBE (rest.take (code / 64 + 1)) + 1) := by omega
    rw [hstep, if_neg hne]
    subst hoff hL
    refine ⟨rfl, matchCopy_length _ out _, ?_⟩
    intro j hj
    exact matchCopy_overlap _ out _ (by omega) j hj

/-- Witness for C4: a kind-1 token with offset 1 against a 1-byte output. -/
theorem c4_decoder_offset_check_witness :
    decodeLoop 4 1 (65 :: [0, 0]) [9] = decodeLoop 4 0 [] (matchCopy [9] 0 5) :=
  ((c4_decoder_offset_check 4 0 65 [0, 0] [9] 1 5 (by decide) (by decide)
    (by decide) (by decide)).2.2 (by decide)).1

/-- Claim C5: the encoder splits a long match by the rule — while
`len > min_match + 63`, cut `min_match + 63` if `len > 2*min_match + 63`,
else cut `len - min_match`, else emit the whole remaining tail — all tokens
of the group carrying the same offset; consequently a match of exactly
`min_match + 63` is one token and one of `min_match + 64` is two tokens. -/
theorem c5_long_match_split (mm off : Nat) (hm1 : 1 ≤ mm) :
    (∀ out len, emitMatchTokens out len off mm =
      out ++ (splitLens mm len len).flatMap (tokenBytes off mm)) ∧
    splitLens mm (mm + 63) (mm + 63) = [mm + 63] ∧
    splitLens mm (mm + 64) (mm + 64) = [64, mm] := by
  refine ⟨fun out len => emitMatchTokens_eq out len off mm, ?_, ?_⟩
  · show splitLens mm (mm + 62 + 1) (mm + 62 + 1) = [mm + 63]
    simp only [splitLens]
    rw [if_neg (by omega), if_neg (by omega)]
    simp [splitLens]
  · show splitLens mm (mm + 63 + 1) (mm + 63 + 1) = [64, mm]
    simp only [splitLens]
    rw [if_neg (by omega), if_pos (by omega)]
    have h1 : mm + 63 + 1 - mm = 64 := by omega
    rw [h1]
    have h2 : mm + 63 + 1 - 64 = mm := by omega
    rw [h2]
    obtain ⟨m, rfl⟩ : ∃ m, mm = m + 1 := ⟨mm - 1, by omega⟩
    show (64 :: splitLens (m + 1) (m + 63 + 1) (m + 1) : List Nat) = [64, m + 1]
    simp only [splitLens]
    rw [if_neg (by omega), if_neg (by omega)]
    simp [splitLens]

/-- Witness for C5 at `min_match = 4`, offset 1. -/
theorem c5_long_match_split_witness :
    (∀ out len, emitMatchTokens out len 1 4 =
      out ++ (splitLens 4 len len).flatMap (tokenBytes 1 4)) ∧
    splitLens 4 (4 + 63) (4 + 63) = [4 + 63] ∧
    splitLens 4 (4 + 64) (4 + 64) = [64, 4] :=
  c5_long_match_split 4 1 (by decide)

/-- Claim C6: the encoder's candidate search tracks the best `(len, off)`
pair with the rule implemented by `pickBest` (src/codec.rs:353-356): a
longer candidate always replaces the best; among equal-length candidates the
smaller offset is selected; and `searchStep` applies exactly this rule to
every candidate that passes the staleness and offset-range filters. -/
theorem c6_tie_break :
    (∀ b c : Nat × Nat, b.1 < c.1 → pickBest b c = c) ∧
    (∀ b c : Nat × Nat, c.1 = b.1 → c.2 < b.2 → pickBest b c = c) ∧
    (∀ b c : Nat × Nat, c.1 = b.1 → b.2 ≤ c.2 → pickBest b c = b) ∧
    (∀ b c : Nat × Nat, c.1 < b.1 → pickBest b c = b) ∧
    (∀ b c1 c2 : Nat × Nat, b.1 < c1.1 → c2.1 = c1.1 →
      pickBest (pickBest b c1) c2 = if c2.2 < c1.2 then c2 else c1) ∧
    (∀ input i mm best p1, p1 ≠ 0 → p1 - 1 < i → i - (p1 - 1) ≤ 16777215 →
      searchStep input i mm best p1 =
        pickBest best (matchLen input (p1 - 1) i (min (input.length - i) (255 + mm)),
          i - (p1 - 1))) := by
  refine ⟨?_, ?_, ?_, ?_, ?_, ?_⟩
  · intro b c h; unfold pickBest; rw [if_pos (Or.inl h)]
  · intro b c h1 h2; unfold pickBest; rw [if_pos (Or.inr ⟨h1, h2⟩)]
  · intro b c h1 h2; unfold pickBest; rw [if_neg (by omega)]
  · intro b c h; unfold pickBest; rw [if_neg (by omega)]
  · intro b c1 c2 h1 h2
    have hb : pickBest b c1 = c1 := by unfold pickBest; rw [if_pos (Or.inl h1)]
    rw [hb]
    unfold pickBest
    split_ifs with h3 h4
    · rfl
    · exfalso; omega
    · exfalso; omega
    · rfl
  · intro input i mm best p1 hp1 hpi hoff
    unfold searchStep
    rw [if_neg hp1, if_neg (by omega), if_neg (by omega)]

/-- Witness for C6: among two equal-length candidates the smaller offset is
selected. -/
theorem c6_tie_break_witness :
    pickBest (pickBest (0, 0) (5, 7)) (5, 3) = if 3 < 7 then ((5, 3) : Nat × Nat) else (5, 7) :=
  c6_tie_break.2.2.2.2.1 (0, 0) (5, 7) (5, 3) (by decide) (by decide)

theorem matchLen_le (input : List Nat) : ∀ cap p i, matchLen input p i cap ≤ cap := by
  intro cap
  induction cap with
  | zero => intro p i; simp [matchLen]
  | succ cap ih =>
    intro p i
    simp only [matchLen]
    split_ifs
    · have := ih (p + 1) (i + 1); omega
    · omega

theorem matchLen_spec (input : List Nat) : ∀ cap p i j, j < matchLen input p i cap →
    input.getD (p + j) 0 = input.getD (i + j) 0 := by
  intro cap
  induction cap with
  | zero => intro p i j hj; simp [matchLen] at hj
  | succ cap ih =>
    intro p i j hj
    simp only [matchLen] at hj
    split_ifs at hj with he
    · cases j with
      | zero => simpa using he
      | succ j =>
        have := ih (p + 1) (i + 1) j (by omega)
        rw [show p + (j + 1) = p + 1 + j by omega, show i + (j + 1) = i + 1 + j by omega]
        exact this
    · omega

/-- The invariant carried by the encoder's best candidate: either no match,
or a verified back-reference — offset in `[1, min(i, 2^24 - 1)]`, length not
past the end of the block, and bytewise equality of the referenced run. -/
def GoodCand (input : List Nat) (i : Nat) (b : Nat × Nat) : Prop :=
  b.2 = 0 ∨ (1 ≤ b.2 ∧ b.2 ≤ i ∧ b.2 ≤ 16777215 ∧ b.1 ≤ input.length - i ∧
    ∀ j < b.1, input.getD (i - b.2 + j) 0 = input.getD (i + j) 0)

theorem goodCand_pickBest (input : List Nat) (i : Nat) (b c : Nat × Nat)
    (hb : GoodCand input i b) (hc : GoodCand input i c) :
    GoodCand input i (pickBest b c) := by
  unfold pickBest
  split_ifs
  · exact hc
  · exact hb

theorem goodCand_searchStep (input : List Nat) (i mm : Nat) (b : Nat × Nat) (p1 : Nat)
    (hb : GoodCand input i b) : GoodCand input i (searchStep input i mm b p1) := by
  simp only [searchStep]
  split_ifs with h1 h2 h3
  · exact hb
  · exact hb
  · exact hb
  · refine goodCand_pickBest input i b _ hb (Or.inr ⟨by omega, by omega, by omega, ?_, ?_⟩)
    · have := matchLen_le input (min (input.length - i) (255 + mm)) (p1 - 1) i
      simp only
      omega
    · intro j hj
      have hspec := matchLen_spec input (min (input.length - i) (255 + mm)) (p1 - 1) i j hj
      rw [show i - (i - (p1 - 1)) = p1 - 1 by omega]
      exact hspec

theorem goodCand_searchLoop (input : List Nat) (i : Nat) (table : List Nat)
    (hash : Nat) (sc : SearchContext) : ∀ steps k b, GoodCand input i b →
    GoodCand input i (searchLoop input i table hash sc k steps b) := by
  intro steps
  induction steps with
  | zero => intro k b hb; exact hb
  | succ steps ih =>
    intro k b hb
    simp only [searchLoop]
    split_ifs
    · exact goodCand_searchStep input i sc.minMatch b _ hb
    · exact ih (k + 1) _ (goodCand_searchStep input i sc.minMatch b _ hb)

theorem goodCand_searchCandidates (input : List Nat) (i : Nat) (b : Nat × Nat)
    (table : List Nat) (hash : Nat) (sc : SearchContext) (hb : GoodCand input i b) :
    GoodCand input i (searchCandidates input i b table hash sc) :=
  goodCand_searchLoop input i table hash sc (sc.bucket + 1) 0 b hb

theorem goodCand_zero (input : List Nat) (i : Nat) : GoodCand input i (0, 0) :=
  Or.inl rfl

theorem goodCand_findBest (input : List Nat) (o : CompressionOptions)
    (sc : SearchContext) (i : Nat) (h1 : List Nat) (h2 : Option (List Nat)) :
    GoodCand input i (findBest input o sc i h1 h2) := by
  cases h2 with
  | none =>
    simp only [findBest]
    split_ifs
    · exact goodCand_searchCandidates input i _ h1 _ sc (goodCand_zero input i)
    · exact goodCand_zero input i
  | some t2 =>
    simp only [findBest]
    split_ifs
    · exact goodCand_searchCandidates input i _ h1 _ sc
        (goodCand_searchCandidates input i _ t2 _ sc (goodCand_zero input i))
    · exact goodCand_searchCandidates input i _ h1 _ sc (goodCand_zero input i)
    · exact goodCand_zero input i

theorem emitMatchTokens_out (out : List Nat) (len off mm : Nat) :
    emitMatchTokens out len off mm = out ++ emitMatchTokens [] len off mm := by
  unfold emitMatchTokens
  exact emitMatchFuel_out len len off mm out

theorem emitLiterals_out (out lits : List Nat) :
    emitLiterals out lits = out ++ emitLiterals [] lits := by
  unfold emitLiterals
  exact emitLitsFuel_out _ _ out

theorem encodeLoop_out (input : List Nat) (o : CompressionOptions) (sc : SearchContext) :
    ∀ fuel i ls out h1 h2, encodeLoop input o sc fuel i ls out h1 h2 =
      out ++ encodeLoop input o sc fuel i ls [] h1 h2 := by
  intro fuel
  induction fuel with
  | zero =>
    intro i ls out h1 h2
    simp only [encodeLoop, emitLiterals]
    exact emitLitsFuel_out _ _ out
  | succ fuel ih =>
    intro i ls out h1 h2
    simp only [encodeLoop]
    split_ifs
    all_goals first
      | (simp only [emitLiterals]; exact emitLitsFuel_out _ _ out)
      | (exact ih _ _ out _ _)
      | (rw [ih _ _ (emitMatchTokens (emitLiterals out _) _ _ _),
          ih _ _ (emitMatchTokens (emitLiterals [] _) _ _ _),
          emitMatchTokens_out (emitLiterals out _),
          emitMatchTokens_out (emitLiterals [] _), emitLiterals_out]
         simp [List.append_assoc])

theorem decodeLoop_lit_step (mm f : Nat) (c rest dout : List Nat)
    (h1 : 1 ≤ c.length) (h64 : c.length ≤ 64) :
    decodeLoop mm (f + 1) ((c.length - 1) :: (c ++ rest)) dout =
      decodeLoop mm f rest (dout ++ c) := by
  have hkind : (c.length - 1) / 64 = 0 := Nat.div_eq_of_lt (by omega)
  have hlow : (c.length - 1) % 64 = c.length - 1 := Nat.mod_eq_of_lt (by omega)
  simp only [decodeLoop, hkind, hlow, if_true]
  rw [show c.length - 1 + 1 = c.length by omega]
  rw [if_neg (by simp)]
  rw [List.take_left' rfl, List.drop_left' rfl]

theorem decodeLoop_lits (mm : Nat) : ∀ lf seg rest dout f, seg.length ≤ lf →
    (emitLitsFuel lf [] seg ++ rest).length ≤ f →
    ∃ f', rest.length ≤ f' ∧ f' ≤ f ∧
      decodeLoop mm f (emitLitsFuel lf [] seg ++ rest) dout =
        decodeLoop mm f' rest (dout ++ seg) := by
  intro lf
  induction lf with
  | zero =>
    intro seg rest dout f hseg hf
    have hnil : seg = [] := List.length_eq_zero.mp (by omega)
    subst hnil
    refine ⟨f, ?_, le_refl f, ?_⟩
    · simpa [emitLitsFuel] using hf
    · simp [emitLitsFuel]
  | succ lf ih =>
    intro seg rest dout f hseg hf
    cases seg with
    | nil =>
      refine ⟨f, ?_, le_refl f, ?_⟩
      · simpa [emitLitsFuel] using hf
      · simp [emitLitsFuel]
    | cons a as =>
      have hchunk1 : 1 ≤ min 64 (a :: as).length := by simp
      have hchunk64 : min 64 (a :: as).length ≤ 64 := by simp
      have hunf : emitLitsFuel (lf + 1) [] (a :: as) =
          ((min 64 (a :: as).length - 1) :: (a :: as).take (min 64 (a :: as).length)) ++
            emitLitsFuel lf [] ((a :: as).drop (min 64 (a :: as).length)) := by
        simp only [emitLitsFuel]
        rw [emitLitsFuel_out]
        simp
      rw [hunf] at hf ⊢
      have htl : ((a :: as).take (min 64 (a :: as).length)).length = min 64 (a :: as).length := by
        simp
      obtain ⟨f0, rfl⟩ : ∃ f0, f = f0 + 1 := ⟨f - 1, by simp at hf; omega⟩
      rw [List.append_assoc, List.cons_append]
      rw [show (min 64 (a :: as).length - 1) =
        ((a :: as).take (min 64 (a :: as).length)).length - 1 by rw [htl]]
      rw [decodeLoop_lit_step mm f0 _ _ dout (by rw [htl]; exact hchunk1) (by rw [htl]; exact hchunk64)]
      have hseg' : ((a :: as).drop (min 64 (a :: as).length)).length ≤ lf := by
        rw [List.length_drop]
        simp only [List.length_cons] at hseg ⊢
        omega
      have hf' : (emitLitsFuel lf [] ((a :: as).drop (min 64 (a :: as).length)) ++ rest).length ≤ f0 := by
        simp at hf ⊢
        omega
      obtain ⟨f', hr1, hr2, heq⟩ := ih _ rest (dout ++ (a :: as).take (min 64 (a :: as).length)) f0 hseg' hf'
      refine ⟨f', hr1, by omega, ?_⟩
      rw [heq, List.append_assoc, List.take_append_drop]

theorem decodeLoop_token_step (mm f l off ob : Nat) (rest dout : List Nat)
    (hl1 : mm ≤ l) (hl2 : l ≤ mm + 63)
    (ho1 : 1 ≤ off) (ho3 : off ≤ dout.length)
    (hob : offBytesFor (off - 1) = ob) (h2b : 2 ≤ ob)
    (hv : off - 1 < 2 ^ (ob * 8)) :
    decodeLoop mm (f + 1) (tokenBytes off mm l ++ rest) dout =
      decodeLoop mm f rest (matchCopy dout (dout.length - off) l) := by
  have hr : (l - mm) % 64 = l - mm := Nat.mod_eq_of_lt (by omega)
  have hcode_kind : ((ob - 1) * 64 + (l - mm) % 64) / 64 = ob - 1 := by rw [hr]; omega
  have hcode_low : ((ob - 1) * 64 + (l - mm) % 64) % 64 = l - mm := by rw [hr]; omega
  have htok : tokenBytes off mm l =
      ((ob - 1) * 64 + (l - mm) % 64) :: beBytes ob (off - 1) := by
    simp only [tokenBytes, hob]
  rw [htok, List.cons_append]
  simp only [decodeLoop, hcode_kind, hcode_low]
  rw [if_neg (by omega)]
  rw [if_neg (by simp [beBytes_length]; omega)]
  rw [show ob - 1 + 1 = ob by omega]
  rw [List.take_left' (beBytes_length ob (off - 1)), List.drop_left' (beBytes_length ob (off - 1))]
  rw [fromBE_beBytes ob (off - 1) hv]
  rw [show off - 1 + 1 = off by omega]
  rw [if_neg (by omega)]
  rw [show l - mm + mm = l by omega]

theorem matchCopy_add : ∀ a b (out : List Nat) (s : Nat),
    matchCopy out s (a + b) = matchCopy (matchCopy out s a) (s + a) b := by
  intro a
  induction a with
  | zero => intro b out s; simp [matchCopy]
  | succ a ih =>
    intro b out s
    rw [show a + 1 + b = (a + b) + 1 by omega]
    show matchCopy (out ++ [out.getD s 0]) (s + 1) (a + b) = _
    rw [ih b (out ++ [out.getD s 0]) (s + 1)]
    rw [show s + (a + 1) = s + 1 + a by omega]
    rfl

theorem take_succ_getD (l : List Nat) (i : Nat) (h : i < l.length) :
    l.take (i + 1) = l.take i ++ [l.getD i 0] := by
  rw [List.take_succ]
  congr 1
  simp [List.getD, List.get?_eq_getElem?, List.getElem?_eq_getElem h]

theorem getD_take (l : List Nat) (n m : Nat) (h : m < n) :
    (l.take n).getD m 0 = l.getD m 0 := by
  simp [List.getD, List.getElem?_take, h]

theorem matchCopy_take (input : List Nat) : ∀ len i off, 1 ≤ off → off ≤ i →
    i + len ≤ input.length →
    (∀ j < len, input.getD (i - off + j) 0 = input.getD (i + j) 0) →
    matchCopy (input.take i) (i - off) len = input.take (i + len) := by
  intro len
  induction len with
  | zero => intro i off _ _ _ _; simp [matchCopy]
  | succ len ih =>
    intro i off h1 h2 h3 hp
    simp only [matchCopy]
    have hgi : (input.take i).getD (i - off) 0 = input.getD i 0 := by
      rw [getD_take input i (i - off) (by omega)]
      have := hp 0 (by omega)
      simpa using this
    rw [hgi]
    rw [← take_succ_getD input i (by omega)]
    rw [show i - off + 1 = (i + 1) - off by omega]
    rw [show i + (len + 1) = (i + 1) + len by omega]
    exact ih (i + 1) off h1 (by omega) (by omega) (fun j hj => by
      have := hp (j + 1) (by omega)
      rw [show i - off + (j + 1) = i + 1 - off + j by omega,
        show i + (j + 1) = i + 1 + j by omega] at this
      exact this)

theorem emitMatchFuel_nil_len_zero (mf off mm : Nat) :
    emitMatchFuel mf [] 0 off mm = [] := by
  cases mf <;> rfl

theorem decodeLoop_match (mm off : Nat) (hm1 : 1 ≤ mm) (hm64 : mm ≤ 64)
    (ho1 : 1 ≤ off) (ho2 : off ≤ 16777215) :
    ∀ mf len (rest dout : List Nat) f, len ≤ mf → mm ≤ len → off ≤ dout.length →
      (emitMatchFuel mf [] len off mm ++ rest).length ≤ f →
      ∃ f', rest.length ≤ f' ∧ f' ≤ f ∧
        decodeLoop mm f (emitMatchFuel mf [] len off mm ++ rest) dout =
          decodeLoop mm f' rest (matchCopy dout (dout.length - off) len) := by
  have hobv : offBytesFor (off - 1) = 2 ∧ off - 1 < 2 ^ (2 * 8) ∨
      offBytesFor (off - 1) = 3 ∧ off - 1 < 2 ^ (3 * 8) := by
    unfold offBytesFor
    split_ifs with hx1 hx2
    · exact Or.inl ⟨rfl, by omega⟩
    · exact Or.inr ⟨rfl, by omega⟩
    · omega
  intro mf
  induction mf with
  | zero => intro len rest dout f hmf hml; omega
  | succ mf ih =>
    intro len rest dout f hmf hml hod hf
    obtain ⟨n, rfl⟩ : ∃ n, len = n + 1 := ⟨len - 1, by omega⟩
    set L1 := if mm * 2 + 63 < n + 1 then mm + 63
      else if mm + 63 < n + 1 then n + 1 - mm else n + 1 with hL1
    have hL1b : mm ≤ L1 ∧ L1 ≤ mm + 63 ∧ 1 ≤ L1 ∧ L1 ≤ n + 1 ∧
        (n + 1 - L1 = 0 ∨ mm ≤ n + 1 - L1) := by
      rw [hL1]; split_ifs <;> omega
    have hunf : emitMatchFuel (mf + 1) [] (n + 1) off mm =
        tokenBytes off mm L1 ++ emitMatchFuel mf [] (n + 1 - L1) off mm := by
      simp only [emitMatchFuel]
      rw [← hL1, emitMatchFuel_out, List.nil_append]
    rw [hunf] at hf ⊢
    have htokpos : 1 ≤ (tokenBytes off mm L1).length := by simp [tokenBytes]
    obtain ⟨f0, rfl⟩ : ∃ f0, f = f0 + 1 := ⟨f - 1, by simp at hf; omega⟩
    rw [List.append_assoc]
    have hstep : decodeLoop mm (f0 + 1)
        (tokenBytes off mm L1 ++ (emitMatchFuel mf [] (n + 1 - L1) off mm ++ rest)) dout =
        decodeLoop mm f0 (emitMatchFuel mf [] (n + 1 - L1) off mm ++ rest)
          (matchCopy dout (dout.length - off) L1) := by
      rcases hobv with ⟨hoeq, hovb⟩ | ⟨hoeq, hovb⟩
      · exact decodeLoop_token_step mm f0 L1 off 2 _ dout hL1b.1 hL1b.2.1 ho1 hod hoeq
          (by omega) hovb
      · exact decodeLoop_token_step mm f0 L1 off 3 _ dout hL1b.1 hL1b.2.1 ho1 hod hoeq
          (by omega) hovb
    rw [hstep]
    have hlen1 : (matchCopy dout (dout.length - off) L1).length = dout.length + L1 :=
      matchCopy_length L1 dout _
    rcases hL1b.2.2.2.2 with hz | hrem
    · have hL1n : L1 = n + 1 := by omega
      rw [hz, emitMatchFuel_nil_len_zero, List.nil_append]
      refine ⟨f0, ?_, by omega, ?_⟩
      · simp at hf; omega
      · rw [hL1n]
    · have hf' : (emitMatchFuel mf [] (n + 1 - L1) off mm ++ rest).length ≤ f0 := by
        simp at hf ⊢; omega
      obtain ⟨f', hf1, hf2, heq⟩ := ih (n + 1 - L1) rest
        (matchCopy dout (dout.length - off) L1) f0 (by omega) hrem
        (by rw [hlen1]; omega) hf'
      refine ⟨f', hf1, by omega, ?_⟩
      rw [heq]
      congr 1
      rw [hlen1]
      rw [show dout.length + L1 - off = dout.length - off + L1 by omega]
      rw [show n + 1 = L1 + (n + 1 - L1) by omega, matchCopy_add]
      congr 1
      omega

theorem decodeLoop_nil (mm f : Nat) (out : List Nat) : decodeLoop mm f [] out = .ok out := by
  cases f <;> rfl

/-- Decoding the final literal flush of the encoder recovers the tail. -/
theorem encodeExit_decodes (input : List Nat) (mm ls f : Nat)
    (hf : (emitLitsFuel (input.drop ls).length [] (input.drop ls)).length ≤ f) :
    decodeLoop mm f (emitLitsFuel (input.drop ls).length [] (input.drop ls)) (input.take ls) =
      .ok input := by
  obtain ⟨f', _, _, heq⟩ := decodeLoop_lits mm (input.drop ls).length (input.drop ls) []
    (input.take ls) f (le_refl _) (by simpa using hf)
  rw [← List.append_nil (emitLitsFuel (input.drop ls).length [] (input.drop ls))]
  rw [heq, decodeLoop_nil, List.take_append_drop]

/-- The heart of the round-trip: from any encoder state whose invariants hold
(pending-literal start not past the cursor, cursor inside the block, enough
loop fuel), decoding the bytes the encoder emits from that state extends the
already-reconstructed prefix to the whole block. -/
theorem encodeLoop_roundtrip (input : List Nat) (o : CompressionOptions) (sc : SearchContext)
    (hm1 : 1 ≤ o.minMatch) (hm64 : o.minMatch ≤ 64) :
    ∀ eF i ls h1 h2, ls ≤ i → i ≤ input.length → input.length - i ≤ eF →
      ∀ f, (encodeLoop input o sc eF i ls [] h1 h2).length ≤ f →
        decodeLoop o.minMatch f (encodeLoop input o sc eF i ls [] h1 h2) (input.take ls) =
          .ok input := by
  intro eF
  induction eF with
  | zero =>
    intro i ls h1 h2 hls hi hf0 f hf
    simp only [encodeLoop, emitLiterals] at hf ⊢
    exact encodeExit_decodes input o.minMatch ls f hf
  | succ eF ih =>
    intro i ls h1 h2 hls hi hf0 f hf
    by_cases hge : input.length ≤ i
    · simp only [encodeLoop, if_pos hge, emitLiterals] at hf ⊢
      exact encodeExit_decodes input o.minMatch ls f hf
    · simp only [encodeLoop, if_neg hge] at hf ⊢
      have hb := goodCand_findBest input o sc i h1 h2
      generalize hex : (if 65536 ≤ (findBest input o sc i h1 h2).2 then 1 else 0) +
        (if 16777216 ≤ (findBest input o sc i h1 h2).2 then 1 else 0) = extra at hf ⊢
      split_ifs at hf ⊢ with hcond
      · obtain ⟨hbne, hbge⟩ := hcond
        have hgood : 1 ≤ (findBest input o sc i h1 h2).2 ∧
            (findBest input o sc i h1 h2).2 ≤ i ∧
            (findBest input o sc i h1 h2).2 ≤ 16777215 ∧
            (findBest input o sc i h1 h2).1 ≤ input.length - i ∧
            ∀ j < (findBest input o sc i h1 h2).1,
              input.getD (i - (findBest input o sc i h1 h2).2 + j) 0 =
                input.getD (i + j) 0 := by
          rcases hb with h | h
          · exact absurd h hbne
          · exact h
        have hmb : o.minMatch ≤ (findBest input o sc i h1 h2).1 := by
          have hx : o.minMatch ≤ o.minMatch + extra := Nat.le_add_right _ _
          omega
        rw [encodeLoop_out, emitMatchTokens_out (emitLiterals [] _), List.append_assoc] at hf ⊢
        simp only [emitLiterals, emitMatchTokens] at hf ⊢
        obtain ⟨f1, hf1a, hf1b, heq1⟩ := decodeLoop_lits o.minMatch _
          ((input.drop ls).take (i - ls)) _ (input.take ls) f (le_refl _) hf
        rw [heq1]
        have hseg : input.take ls ++ (input.drop ls).take (i - ls) = input.take i := by
          rw [← List.take_add, show ls + (i - ls) = i by omega]
        rw [hseg]
        obtain ⟨f2, hf2a, hf2b, heq2⟩ := decodeLoop_match o.minMatch
          (findBest input o sc i h1 h2).2 hm1 hm64 (by omega) (by omega)
          (findBest input o sc i h1 h2).1 (findBest input o sc i h1 h2).1 _
          (input.take i) f1 (le_refl _) hmb
          (by rw [List.length_take]; omega) hf1a
        rw [heq2]
        have hmc : matchCopy (input.take i)
            ((input.take i).length - (findBest input o sc i h1 h2).2)
            (findBest input o sc i h1 h2).1 =
            input.take (i + (findBest input o sc i h1 h2).1) := by
          have hlen : (input.take i).length = i := by rw [List.length_take]; omega
          rw [hlen]
          exact matchCopy_take input _ i _ (by omega) (by omega) (by omega)
            (fun j hj => hgood.2.2.2.2 j hj)
        rw [hmc]
        exact ih (i + (findBest input o sc i h1 h2).1)
          (i + (findBest input o sc i h1 h2).1) _ _ (le_refl _) (by omega) (by omega)
          f2 hf2a
      · exact ih (i + 1) ls _ _ (by omega) (by omega) (by omega) f hf

/-- Block-level round trip: decoding an encoded block against the block's
own length yields the original block, for any `min_match` in the validated
range. -/
theorem decode_encode_block (input : List Nat) (o : CompressionOptions)
    (hm1 : 1 ≤ o.minMatch) (hm64 : o.minMatch ≤ 64) :
    decodeLzBlock (encodeLzBlock input o) input.length o.minMatch = .ok input := by
  have he : encodeLzBlock input o =
      encodeLoop input o ⟨o.minMatch, 2 ^ o.searchLog - 1, 2 ^ o.tableLog - 1⟩
        input.length 0 0 [] (List.replicate (2 ^ o.tableLog) 0)
        (if 0 < o.secondaryMatch then some (List.replicate (2 ^ o.tableLog) 0) else none) := by
    simp only [encodeLzBlock]
  have h := encodeLoop_roundtrip input o
    ⟨o.minMatch, 2 ^ o.searchLog - 1, 2 ^ o.tableLog - 1⟩ hm1 hm64
    input.length 0 0 (List.replicate (2 ^ o.tableLog) 0)
    (if 0 < o.secondaryMatch then some (List.replicate (2 ^ o.tableLog) 0) else none)
    (le_refl 0) (Nat.zero_le _) (by omega)
    (encodeLzBlock input o).length (by rw [he])
  rw [List.take_zero] at h
  rw [← he] at h
  unfold decodeLzBlock
  rw [h]
  simp

theorem emitLitsFuel_len (f : Nat) :
    ∀ lits out : List Nat, (emitLitsFuel f out lits).length ≤ out.length + 2 * lits.length := by
  induction f with
  | zero => intro lits out; cases lits <;> simp [emitLitsFuel]
  | succ f ih =>
    intro lits out
    cases lits with
    | nil => simp [emitLitsFuel]
    | cons a as =>
      simp only [emitLitsFuel]
      have := ih ((a :: as).drop (min 64 (a :: as).length))
        (out ++ (min 64 (a :: as).length - 1) :: (a :: as).take (min 64 (a :: as).length))
      refine le_trans this ?_
      simp only [List.length_append, List.length_cons, List.length_take, List.length_drop,
        List.length_cons]
      omega

theorem tokenBytes_len (off mm l : Nat) : (tokenBytes off mm l).length ≤ 5 := by
  simp only [tokenBytes, List.length_cons, beBytes_length]
  unfold offBytesFor
  split_ifs <;> omega

theorem emitMatchFuel_len (off mm : Nat) :
    ∀ f len (out : List Nat), (emitMatchFuel f out len off mm).length ≤ out.length + 5 * len := by
  intro f
  induction f with
  | zero => intro len out; cases len <;> simp [emitMatchFuel]
  | succ f ih =>
    intro len out
    cases len with
    | zero => simp [emitMatchFuel]
    | succ n =>
      simp only [emitMatchFuel]
      set L1 := if mm * 2 + 63 < n + 1 then mm + 63
        else if mm + 63 < n + 1 then n + 1 - mm else n + 1 with hL1
      have hL1b : 1 ≤ L1 ∧ L1 ≤ n + 1 := by rw [hL1]; split_ifs <;> omega
      have := ih (n + 1 - L1) (out ++ tokenBytes off mm L1)
      refine le_trans this ?_
      have htok := tokenBytes_len off mm L1
      simp only [List.length_append]
      omega

/-- The encoded block is at most 7 times the raw block (2 bytes per pending
literal, 5 bytes per covered match byte in the worst case); this keeps the
`compressed_len as u32` cast exact for any `block_size ≤ 2^29`. -/
theorem encodeLoop_len (input : List Nat) (o : CompressionOptions) (sc : SearchContext) :
    ∀ fuel i ls h1 h2, ls ≤ i → i ≤ input.length →
      (encodeLoop input o sc fuel i ls [] h1 h2).length ≤
        2 * (input.length - ls) + 5 * (input.length - i) := by
  intro fuel
  induction fuel with
  | zero =>
    intro i ls h1 h2 hls hi
    simp only [encodeLoop, emitLiterals]
    have := emitLitsFuel_len (input.drop ls).length (input.drop ls) []
    simp only [List.length_nil, List.length_drop] at this ⊢
    omega
  | succ fuel ih =>
    intro i ls h1 h2 hls hi
    by_cases hge : input.length ≤ i
    · simp only [encodeLoop, if_pos hge, emitLiterals]
      have := emitLitsFuel_len (input.drop ls).length (input.drop ls) []
      simp only [List.length_nil, List.length_drop] at this ⊢
      omega
    · simp only [encodeLoop, if_neg hge]
      have hb := goodCand_findBest input o sc i h1 h2
      generalize (if 65536 ≤ (findBest input o sc i h1 h2).2 then 1 else 0) +
        (if 16777216 ≤ (findBest input o sc i h1 h2).2 then 1 else 0) = extra
      split_ifs with hcond
      · obtain ⟨hbne, _⟩ := hcond
        have hblen : (findBest input o sc i h1 h2).1 ≤ input.length - i := by
          rcases hb with h | h
          · exact absurd h hbne
          · exact h.2.2.2.1
        rw [encodeLoop_out, emitMatchTokens_out (emitLiterals [] _)]
        have hrec := ih (i + (findBest input o sc i h1 h2).1)
          (i + (findBest input o sc i h1 h2).1)
          (updateRange input o i (min (i + (findBest input o sc i h1 h2).1) input.length - i) h1 h2).1
          (updateRange input o i (min (i + (findBest input o sc i h1 h2).1) input.length - i) h1 h2).2
          (le_refl _) (by omega)
        have hlits := emitLitsFuel_len ((input.drop ls).take (i - ls)).length
          ((input.drop ls).take (i - ls)) []
        have hmatch := emitMatchFuel_len (findBest input o sc i h1 h2).2 o.minMatch
          (findBest input o sc i h1 h2).1 (findBest input o sc i h1 h2).1 []
        simp only [emitLiterals, emitMatchTokens] at *
        simp only [List.length_append, List.length_nil, List.length_take,
          List.length_drop] at *
        omega
      · have hrec := ih (i + 1) ls (updateTables input o i h1 h2).1
          (updateTables input o i h1 h2).2 (by omega) (by omega)
        refine le_trans hrec (by omega)

theorem encodeLzBlock_len (input : List Nat) (o : CompressionOptions) :
    (encodeLzBlock input o).length ≤ 7 * input.length := by
  have he : encodeLzBlock input o =
      encodeLoop input o ⟨o.minMatch, 2 ^ o.searchLog - 1, 2 ^ o.tableLog - 1⟩
        input.length 0 0 [] (List.replicate (2 ^ o.tableLog) 0)
        (if 0 < o.secondaryMatch then some (List.replicate (2 ^ o.tableLog) 0) else none) := by
    simp only [encodeLzBlock]
  rw [he]
  have := encodeLoop_len input o ⟨o.minMatch, 2 ^ o.searchLog - 1, 2 ^ o.tableLog - 1⟩
    input.length 0 0 (List.replicate (2 ^ o.tableLog) 0)
    (if 0 < o.secondaryMatch then some (List.replicate (2 ^ o.tableLog) 0) else none)
    (le_refl 0) (Nat.zero_le _)
  omega

/-- Each framed block consumes at most `block_size` input bytes and produces
at least one output byte, so the input length is bounded by `block_size`
times the framed body length. -/
theorem compressBlocks_ge (o : CompressionOptions) (hbs : 1 ≤ o.blockSize) :
    ∀ cf (x : List Nat), x.length < cf →
      x.length ≤ o.blockSize * (compressBlocks o cf x).length := by
  intro cf
  induction cf with
  | zero => intro x hx; omega
  | succ cf ih =>
    intro x hx
    by_cases hn : min o.blockSize x.length = 0
    · have hx0 : x.length = 0 := by omega
      omega
    · have hunf : compressBlocks o (cf + 1) x =
          le4 (min o.blockSize x.length % 4294967296) ++
            le4 ((encodeLzBlock (x.take (min o.blockSize x.length)) o).length % 4294967296) ++
            encodeLzBlock (x.take (min o.blockSize x.length)) o ++
            compressBlocks o cf (x.drop (min o.blockSize x.length)) := by
        simp only [compressBlocks, if_neg hn]
      rw [hunf]
      have hih := ih (x.drop (min o.blockSize x.length)) (by
        rw [List.length_drop]; omega)
      rw [List.length_drop] at hih
      have hlen : (le4 (min o.blockSize x.length % 4294967296) ++
            le4 ((encodeLzBlock (x.take (min o.blockSize x.length)) o).length % 4294967296) ++
            encodeLzBlock (x.take (min o.blockSize x.length)) o ++
            compressBlocks o cf (x.drop (min o.blockSize x.length))).length =
          8 + ((encodeLzBlock (x.take (min o.blockSize x.length)) o).length +
            (compressBlocks o cf (x.drop (min o.blockSize x.length))).length) := by
        simp [le4]
        omega
      rw [hlen]
      have hmul : o.blockSize *
          (8 + ((encodeLzBlock (x.take (min o.blockSize x.length)) o).length +
            (compressBlocks o cf (x.drop (min o.blockSize x.length))).length)) =
          o.blockSize * 8 +
          o.blockSize * (encodeLzBlock (x.take (min o.blockSize x.length)) o).length +
          o.blockSize * (compressBlocks o cf (x.drop (min o.blockSize x.length))).length := by
        ring
      rw [hmul]
      have h8 : o.blockSize ≤ o.blockSize * 8 := by omega
      omega

/-- Decoding the framed body produced by the compressor's block loop appends
exactly the original input, for validated options with `block_size ≤ 2^29`
(so that the `u32` length fields are exact). -/
theorem decompressLoop_compressBlocks (o : CompressionOptions)
    (hm1 : 1 ≤ o.minMatch) (hm64 : o.minMatch ≤ 64)
    (hbs1 : 1 ≤ o.blockSize) (hbs : o.blockSize ≤ 536870912) :
    ∀ cf (x acc : List Nat) df, x.length < cf → x.length ≤ o.blockSize * df →
      decompressLoop o df (compressBlocks o cf x) acc = .ok (acc ++ x) := by
  intro cf
  induction cf with
  | zero => intro x acc df hx _; exact absurd hx (Nat.not_lt_zero _)
  | succ cf ih =>
    intro x acc df hxcf hxdf
    by_cases hn : min o.blockSize x.length = 0
    · have hx0 : x = [] := List.length_eq_zero.mp (by omega)
      subst hx0
      have hterm : compressBlocks o (cf + 1) [] = le4 0 ++ le4 0 := by
        simp [compressBlocks]
      rw [hterm]
      rw [decompressLoop]
      simp [le4, fromLE4]
    · have hx1 : 1 ≤ x.length := by omega
      have hn32 : min o.blockSize x.length < 4294967296 := by omega
      have htn : (x.take (min o.blockSize x.length)).length = min o.blockSize x.length := by
        rw [List.length_take]; omega
      have helen : (encodeLzBlock (x.take (min o.blockSize x.length)) o).length ≤
          7 * min o.blockSize x.length := by
        have := encodeLzBlock_len (x.take (min o.blockSize x.length)) o
        rw [htn] at this
        exact this
      have he32 : (encodeLzBlock (x.take (min o.blockSize x.length)) o).length < 4294967296 := by
        omega
      have hunf : compressBlocks o (cf + 1) x =
          le4 (min o.blockSize x.length) ++
            le4 (encodeLzBlock (x.take (min o.blockSize x.length)) o).length ++
            encodeLzBlock (x.take (min o.blockSize x.length)) o ++
            compressBlocks o cf (x.drop (min o.blockSize x.length)) := by
        simp only [compressBlocks, if_neg hn]
        rw [Nat.mod_eq_of_lt hn32, Nat.mod_eq_of_lt he32]
      rw [hunf]
      obtain ⟨df0, rfl⟩ : ∃ df0, df = df0 + 1 := by
        cases df with
        | zero => exfalso; rw [Nat.mul_zero] at hxdf; omega
        | succ d => exact ⟨d, rfl⟩
      rw [decompressLoop]
      simp only [le4, List.cons_append, List.nil_append, List.length_cons,
        List.getD_cons_succ, List.getD_cons_zero, List.drop_succ_cons, List.drop_zero]
      rw [if_neg (by omega)]
      rw [le4_fromLE4 _ hn32, le4_fromLE4 _ he32]
      rw [if_neg (by omega)]
      rw [if_neg (by simp)]
      rw [List.take_left, List.drop_left]
      have hdec := decode_encode_block (x.take (min o.blockSize x.length)) o hm1 hm64
      rw [htn] at hdec
      rw [hdec]
      have hdrop : (x.drop (min o.blockSize x.length)).length ≤ o.blockSize * df0 := by
        rw [List.length_drop]
        have hmul : o.blockSize * (df0 + 1) = o.blockSize * df0 + o.blockSize := by ring
        omega
      show decompressLoop o df0 (compressBlocks o cf (x.drop (min o.blockSize x.length)))
        (acc ++ x.take (min o.blockSize x.length)) = .ok (acc ++ x)
      rw [ih (x.drop (min o.blockSize x.length)) (acc ++ x.take (min o.blockSize x.length))
        df0 (by rw [List.length_drop]; omega) hdrop]
      rw [List.append_assoc, List.take_append_drop]

/-- Claim C1 (counterexample): the options with `block_size = 2^32` pass
validation, yet for `x = [0]` decompressing the output of compress fails —
`write_stream_header` truncates `block_size as u32` to 0 and the decoder's
option validation then rejects the stream. -/
theorem c1_counterexample :
    validateOptions ⟨4294967296, 1, 0, 0, 8⟩ = .ok () ∧
      Except.bind (compress [0] ⟨4294967296, 1, 0, 0, 8⟩) decompress =
        .error (.InvalidOption "block-size must be > 0") := by
  constructor
  · rfl
  · decide

/-- Claim C1 (amended): for every byte input `x` and every compression
options value that passes validation and has `block_size ≤ 2^29` (so that
the `u32` length fields of the framing — block_size, uncompressed_len and
compressed_len — cannot truncate), decompressing the output of
`compress(x, opts)` succeeds and yields exactly `x`. -/
theorem c1_roundtrip (x : List Nat) (o : CompressionOptions)
    (_hbytes : ∀ b ∈ x, b < 256) (hv : validateOptions o = .ok ())
    (hbs : o.blockSize ≤ 536870912) :
    Except.bind (compress x o) decompress = .ok x := by
  obtain ⟨hm1, hm64, _, hbs1, _, _, _⟩ := validateOptions_bounds o hv
  unfold compress
  rw [hv]
  show decompress (streamHeaderBytes o ++ compressBlocks o (x.length + 1) x) = .ok x
  unfold decompress
  rw [readStreamHeader_append o _ hv (by omega)]
  show decompressLoop o ((compressBlocks o (x.length + 1) x).length + 1)
    (compressBlocks o (x.length + 1) x) [] = .ok x
  have hge := compressBlocks_ge o hbs1 (x.length + 1) x (by omega)
  have hdf : x.length ≤ o.blockSize * ((compressBlocks o (x.length + 1) x).length + 1) := by
    have hmul : o.blockSize * ((compressBlocks o (x.length + 1) x).length + 1) =
        o.blockSize * (compressBlocks o (x.length + 1) x).length + o.blockSize := by ring
    omega
  have := decompressLoop_compressBlocks o hm1 hm64 hbs1 hbs (x.length + 1) x []
    ((compressBlocks o (x.length + 1) x).length + 1) (by omega) hdf
  simpa using this

/-- Witness for C1: a 5-byte input with a 4-byte block size (two blocks)
round-trips. -/
theorem c1_roundtrip_witness :
    Except.bind (compress [1, 2, 1, 2, 1] ⟨4, 1, 0, 0, 8⟩) decompress =
      .ok [1, 2, 1, 2, 1] :=
  c1_roundtrip [1, 2, 1, 2, 1] ⟨4, 1, 0, 0, 8⟩ (by decide) rfl (by decide)

/-! ### The ZPAQ archive reader (src/zpaq.rs) -/

/-- `MAGIC_16` (src/zpaq.rs:9-11). -/
def MAGIC16 : List Nat :=
  [55, 107, 83, 116, 160, 49, 131, 211, 140, 178, 40, 176, 211, 122, 80, 81]

/-- `START_TAG_13` (src/zpaq.rs:6-8): the first 13 bytes of the magic. -/
def STARTTAG13 : List Nat :=
  [55, 107, 83, 116, 160, 49, 131, 211, 140, 178, 40, 176, 211]

/-- `COMP_SIZE` (src/zpaq.rs:12). -/
def COMPSIZE : List Nat := [0, 2, 3, 2, 3, 4, 6, 6, 3, 5]

/-- `ZpaqBlockHeader` (src/zpaq.rs:14-28), all fields as `Nat`. -/
structure ZpaqBlockHeader : Type where
  startOffset : Nat
  level : Nat
  zpaqlType : Nat
  hsize : Nat
  hh : Nat
  hm : Nat
  ph : Nat
  pm : Nat
  nComponents : Nat
  compBytes : Nat
  hcompBytes : Nat
  segmentOffset : Nat
deriving DecidableEq

/-- `ZpaqExtractedSegment` (src/zpaq.rs:30-37); the filename and comment are
kept as their raw bytes (the source stores their lossy UTF-8 decoding, which
is the identity on the byte values that appear in the claims). -/
structure ZpaqExtractedSegment : Type where
  blockIndex : Nat
  filename : List Nat
  comment : List Nat
  data : List Nat
  sha1 : Option (List Nat)
deriving DecidableEq

/-- `find_magic` (src/zpaq.rs:218-222), scanning from absolute position `j`:
the position of the first 16-byte window equal to the magic, as an absolute
offset.  One fuel unit per candidate position. -/
def findMagicAux (data : List Nat) : Nat → Nat → Option Nat
  | 0, _ => none
  | f + 1, j =>
    if data.length < j + 16 then none
    else if (data.drop j).take 16 = MAGIC16 then some j
    else findMagicAux data f (j + 1)

/-- `find_magic` applied to `data[i..]`, returning an absolute offset. -/
def findMagicFrom (data : List Nat) (i : Nat) : Option Nat :=
  findMagicAux data (data.length + 1) i

/-- The COMP-section walk of `parse_block_header` (src/zpaq.rs:263-277):
advance `cp` over `count` component entries, validating each type byte. -/
def compWalk (data : List Nat) (hdrStart hdrTotal : Nat) : Nat → Nat → Except ZparsError Nat
  | 0, cp => .ok cp
  | k + 1, cp =>
    if hdrStart + hdrTotal ≤ cp then .error (.Corrupt "COMP overflows header")
    else
      let t := data.getD cp 0
      if COMPSIZE.length ≤ t ∨ COMPSIZE.getD t 0 = 0 then
        .error (.Corrupt "invalid component type")
      else if hdrStart + hdrTotal < cp + COMPSIZE.getD t 0 then
        .error (.Corrupt "component overflows header")
      else compWalk data hdrStart hdrTotal k (cp + COMPSIZE.getD t 0)

/-- `parse_block_header` (src/zpaq.rs:224-318). -/
def parseBlockHeader (data : List Nat) (pos0 : Nat) :
    Except ZparsError (Option (ZpaqBlockHeader × Nat)) :=
  if data.length < pos0 + 16 + 2 then .ok none
  else if (data.drop pos0).take 13 ≠ STARTTAG13 then .ok none
  else
    let level := data.getD (pos0 + 16) 0
    if level ≠ 1 ∧ level ≠ 2 then .ok none
    else
      let zt := data.getD (pos0 + 17) 0
      if zt ≠ 1 then .ok none
      else
        let p := pos0 + 18
        if data.length < p + 7 then .error (.Corrupt "truncated ZPAQL header prefix")
        else
          let hsize := data.getD p 0 + 256 * data.getD (p + 1) 0
          let headerTotal := hsize + 2
          if data.length < p + headerTotal then .error (.Corrupt "truncated ZPAQL header")
          else
            match compWalk data p headerTotal (data.getD (p + 6) 0) (p + 7) with
            | .error e => .error e
            | .ok cp =>
              if p + headerTotal ≤ cp ∨ data.getD cp 0 ≠ 0 then
                .error (.Corrupt "missing COMP END")
              else
                let compBytes := cp + 1 - (p + 2)
                if hsize < compBytes then .error (.Corrupt "invalid hsize/COMP layout")
                else if hsize - compBytes = 0 then .error (.Corrupt "missing HCOMP")
                else if data.getD (p + headerTotal - 1) 0 ≠ 0 then
                  .error (.Corrupt "missing HCOMP END")
                else
                  .ok (some (⟨pos0, level, zt, hsize, data.getD (p + 2) 0,
                    data.getD (p + 3) 0, data.getD (p + 4) 0, data.getD (p + 5) 0,
                    data.getD (p + 6) 0, compBytes, hsize - compBytes, p + headerTotal⟩,
                    max (p + headerTotal - pos0) 1))

/-- The scan loop of `inspect_bytes` (src/zpaq.rs:44-64).  Each iteration
advances the cursor by at least one byte, so `data.length + 1` fuel
suffices. -/
def inspectLoop (data : List Nat) : Nat → Nat → List ZpaqBlockHeader →
    Except ZparsError (List ZpaqBlockHeader)
  | 0, _, acc => .ok acc
  | f + 1, i, acc =>
    if ¬ i + 16 + 2 < data.length then .ok acc
    else
      match findMagicFrom data i with
      | none => .ok acc
      | some at1 =>
        match parseBlockHeader data at1 with
        | .error e => .error e
        | .ok none => inspectLoop data f (at1 + 1) acc
        | .ok (some (h, consumed)) => inspectLoop data f (at1 + consumed) (acc ++ [h])

/-- `inspect_bytes` (src/zpaq.rs:44-64). -/
def inspectBytes (data : List Nat) : Except ZparsError (List ZpaqBlockHeader) :=
  inspectLoop data (data.length + 1) 0 []

/-- `get_required` (src/zpaq.rs:209-216): one byte at `pos`, or `Corrupt`. -/
def getRequired (data : List Nat) (pos : Nat) (what : String) :
    Except ZparsError (Nat × Nat) :=
  if data.length ≤ pos then .error (.Corrupt what)
  else .ok (data.getD pos 0, pos + 1)

/-- `read_u32_be` (src/zpaq.rs:189-195). -/
def readU32BE (data : List Nat) (pos : Nat) : Except ZparsError (Nat × Nat) :=
  match getRequired data pos "u32" with
  | .error e => .error e
  | .ok (b0, p1) =>
    match getRequired data p1 "u32" with
    | .error e => .error e
    | .ok (b1, p2) =>
      match getRequired data p2 "u32" with
      | .error e => .error e
      | .ok (b2, p3) =>
        match getRequired data p3 "u32" with
        | .error e => .error e
        | .ok (b3, p4) => .ok (((b0 * 256 + b1) * 256 + b2) * 256 + b3, p4)

/-- `decompress_unmodeled_byte` (src/zpaq.rs:176-187): state is the position
and the running chunk counter; yields the next byte, or -1 on a zero chunk
length (end of stream). -/
def decompressUnmodeledByte (data : List Nat) (pos curr : Nat) :
    Except ZparsError (Int × Nat × Nat) :=
  if curr = 0 then
    match readU32BE data pos with
    | .error e => .error e
    | .ok (c, p1) =>
      if c = 0 then .ok (-1, p1, 0)
      else
        match getRequired data p1 "compressed payload" with
        | .error e => .error e
        | .ok (b, p2) => .ok (Int.ofNat b, p2, c - 1)
  else
    match getRequired data pos "compressed payload" with
    | .error e => .error e
    | .ok (b, p2) => .ok (Int.ofNat b, p2, curr - 1)

/-- `PassOrProgramPostProcessor` (src/zpaq.rs:320-327).  The state byte is a
`u8`; `phField`/`pmField` mirror the stored (unused) `_ph`/`_pm`. -/
structure PPState : Type where
  state : Nat
  programRemaining : Nat
  programMode : Bool
  phField : Nat
  pmField : Nat
deriving DecidableEq

/-- `PassOrProgramPostProcessor::write` (src/zpaq.rs:344-404).  Returns the
updated processor and the bytes pushed to the segment output.  The state-0
assignment `c as u8 + 1` wraps in `u8`, hence the mod 256. -/
def ppWrite (pp : PPState) (c : Int) : Except ZparsError (PPState × List Nat) :=
  match pp.state with
  | 0 =>
    if c < 0 then .error (.Corrupt "unexpected EOS in postprocessor header")
    else
      let st := (c.toNat % 256 + 1) % 256
      if st = 1 ∨ st = 2 then .ok ({ pp with state := st }, [])
      else .error (.Corrupt "unknown postprocessing type")
  | 1 =>
    if 0 ≤ c then .ok (pp, [c.toNat % 256]) else .ok (pp, [])
  | 2 =>
    if c < 0 then .error (.Corrupt "unexpected EOS reading PCOMP size low")
    else .ok ({ pp with programRemaining := c.toNat, state := 3 }, [])
  | 3 =>
    if c < 0 then .error (.Corrupt "unexpected EOS reading PCOMP size high")
    else
      let r := pp.programRemaining ||| (c.toNat <<< 8)
      if r = 0 then .error (.Corrupt "empty PCOMP")
      else .ok ({ pp with programRemaining := r, state := 4 }, [])
  | 4 =>
    if c < 0 then .error (.Corrupt "unexpected EOS reading PCOMP body")
    else
      let r := pp.programRemaining - 1
      if r = 0 then .ok ({ pp with programRemaining := r, programMode := true, state := 5 }, [])
      else .ok ({ pp with programRemaining := r }, [])
  | 5 => .ok (pp, [])
  | _ => .error (.Corrupt "invalid postprocessor state")

/-- The priming loop for the first segment of a block (src/zpaq.rs:124-130):
feed decompressed bytes to the postprocessor until `(state & 3) == 1`. -/
def primeLoop (data : List Nat) : Nat → Nat → Nat → PPState → List Nat →
    Except ZparsError (Nat × Nat × PPState × List Nat)
  | 0, _, _, _, _ => .error (.Corrupt "iteration bound exhausted")
  | f + 1, pos, curr, pp, acc =>
    if pp.state &&& 3 = 1 then .ok (pos, curr, pp, acc)
    else
      match decompressUnmodeledByte data pos curr with
      | .error e => .error e
      | .ok (c, pos', curr') =>
        match ppWrite pp c with
        | .error e => .error e
        | .ok (pp', bytes) => primeLoop data f pos' curr' pp' (acc ++ bytes)

/-- The per-segment payload loop (src/zpaq.rs:132-138): feed bytes until the
chunk stream yields the EOS sentinel. -/
def payloadLoop (data : List Nat) : Nat → Nat → Nat → PPState → List Nat →
    Except ZparsError (Nat × Nat × PPState × List Nat)
  | 0, _, _, _, _ => .error (.Corrupt "iteration bound exhausted")
  | f + 1, pos, curr, pp, acc =>
    match decompressUnmodeledByte data pos curr with
    | .error e => .error e
    | .ok (c, pos', curr') =>
      match ppWrite pp c with
      | .error e => .error e
      | .ok (pp', bytes) =>
        if c < 0 then .ok (pos', curr', pp', acc ++ bytes)
        else payloadLoop data f pos' curr' pp' (acc ++ bytes)

/-- `read_cstr` (src/zpaq.rs:197-207), returning the raw bytes before the
terminating zero. -/
def readCstr (data : List Nat) : Nat → Nat → List Nat →
    Except ZparsError (List Nat × Nat)
  | 0, _, _ => .error (.Corrupt "iteration bound exhausted")
  | f + 1, pos, acc =>
    match getRequired data pos "cstr" with
    | .error e => .error e
    | .ok (c, pos') =>
      if c = 0 then .ok (acc, pos') else readCstr data f pos' (acc ++ [c])

/-- The 20-byte SHA-1 trailer read (src/zpaq.rs:143-148). -/
def readSha1 (data : List Nat) : Nat → Nat → List Nat →
    Except ZparsError (List Nat × Nat)
  | 0, pos, acc => .ok (acc, pos)
  | k + 1, pos, acc =>
    match getRequired data pos "sha1 byte" with
    | .error e => .error e
    | .ok (b, pos') => readSha1 data k pos' (acc ++ [b])

/-- The per-block segment loop of `extract_unmodeled_bytes`
(src/zpaq.rs:105-167): read segment markers, metadata, payload (priming the
postprocessor on the first segment), and the end-of-segment marker with its
optional SHA-1.  Returns the segments and the final cursor. -/
def segLoop (data : List Nat) (blockIndex : Nat) : Nat → Nat → Nat → PPState → Bool →
    List ZpaqExtractedSegment → Except ZparsError (List ZpaqExtractedSegment × Nat)
  | 0, _, _, _, _, _ => .error (.Corrupt "iteration bound exhausted")
  | f + 1, pos, curr, pp, first, acc =>
    match getRequired data pos "segment marker" with
    | .error e => .error e
    | .ok (marker, pos1) =>
      if marker = 255 then .ok (acc, pos1)
      else if marker ≠ 1 then .error (.Corrupt "missing segment or end-of-block marker")
      else
        match readCstr data (data.length + 1) pos1 [] with
        | .error e => .error e
        | .ok (fname, pos2) =>
          match readCstr data (data.length + 1) pos2 [] with
          | .error e => .error e
          | .ok (comm, pos3) =>
            match getRequired data pos3 "reserved byte" with
            | .error e => .error e
            | .ok (rb, pos4) =>
              if rb ≠ 0 then .error (.Corrupt "missing reserved byte after comment")
              else
                match (if first then primeLoop data (data.length + 1) pos4 curr pp []
                    else .ok (pos4, curr, pp, [])) with
                | .error e => .error e
                | .ok (pos5, curr5, pp5, sd1) =>
                  match payloadLoop data (data.length + 1) pos5 curr5 pp5 sd1 with
                  | .error e => .error e
                  | .ok (pos6, curr6, pp6, sd2) =>
                    match getRequired data pos6 "segment end marker" with
                    | .error e => .error e
                    | .ok (segEnd, pos7) =>
                      if segEnd = 254 then
                        segLoop data blockIndex f pos7 curr6 pp6 false
                          (acc ++ [⟨blockIndex, fname, comm, sd2, none⟩])
                      else if segEnd = 253 then
                        match readSha1 data 20 pos7 [] with
                        | .error e => .error e
                        | .ok (sum, pos8) =>
                          segLoop data blockIndex f pos8 curr6 pp6 false
                            (acc ++ [⟨blockIndex, fname, comm, sd2, some sum⟩])
                      else .error (.Corrupt "missing end-of-segment marker")

/-- The block loop of `extract_unmodeled_bytes` (src/zpaq.rs:71-174): find
the next magic, parse the header, reject modeled blocks, decode the block's
segments, and continue past them. -/
def extractLoop (data : List Nat) : Nat → Nat → Nat → List ZpaqExtractedSegment →
    Except ZparsError (List ZpaqExtractedSegment)
  | 0, _, _, acc => .ok acc
  | f + 1, i, blockIndex, acc =>
    if ¬ i + 16 + 2 < data.length then .ok acc
    else
      match findMagicFrom data i with
      | none => .ok acc
      | some at1 =>
        match parseBlockHeader data at1 with
        | .error e => .error e
        | .ok none => extractLoop data f (at1 + 1) blockIndex acc
        | .ok (some (header, consumed)) =>
          if header.nComponents ≠ 0 then
            .error (.InvalidFormat "modeled blocks are not supported yet; use zpaq -m0 for now")
          else
            match segLoop data blockIndex (data.length + 1) header.segmentOffset 0
                ⟨0, 0, false, header.ph, header.pm⟩ true [] with
            | .error e => .error e
            | .ok (segs, pos) =>
              extractLoop data f (max pos (at1 + consumed)) (blockIndex + 1) (acc ++ segs)

/-- `extract_unmodeled_bytes` (src/zpaq.rs:71-174). -/
def extractUnmodeledBytes (data : List Nat) :
    Except ZparsError (List ZpaqExtractedSegment) :=
  extractLoop data (data.length + 1) 0 0 []

/-- An unmodeled ZPAQ block (level 1, `n_components = 0`, `hsize = 7`) with
one segment: filename "a", empty comment, payload bytes `[104, 105]`
delivered through the big-endian chunk stream (a 1-byte priming chunk
carrying postprocessor type 0, a 2-byte data chunk, a zero end-of-stream
chunk), end-of-segment marker 254 (no SHA-1) and end-of-block marker 255. -/
def zpaqBlockOneSeg : List Nat :=
  MAGIC16 ++ [1, 1, 7, 0, 0, 0, 0, 0, 0, 0, 0] ++
    [1, 97, 0, 0, 0, 0, 0, 0, 1, 0, 0, 0, 0, 2, 104, 105, 0, 0, 0, 0, 254, 255]

/-- A modeled ZPAQ block header: level 1, `hsize = 9`, `n_components = 1`
with one type-1 component, then the COMP and HCOMP terminators. -/
def zpaqModeledBlock : List Nat :=
  MAGIC16 ++ [1, 1, 9, 0, 0, 0, 0, 0, 1, 1, 0, 0, 0]

/-- A buffer whose first block is unmodeled but has a corrupt segment area
(marker byte 7), followed by a modeled block. -/
def zpaqCorruptThenModeled : List Nat :=
  MAGIC16 ++ [1, 1, 7, 0, 0, 0, 0, 0, 0, 0, 0] ++ [7] ++ zpaqModeledBlock

/-- Claim C7 (counterexample): a buffer in which the scanner finds two
blocks, the second of which is modeled (`n_components = 1`), yet
`extract_unmodeled_bytes` fails with `Corrupt` — not `InvalidFormat` — because
the first block's segment area is corrupt and extraction stops there before
ever reaching the modeled block. -/
theorem c7_counterexample :
    inspectBytes zpaqCorruptThenModeled =
      .ok [⟨0, 1, 1, 7, 0, 0, 0, 0, 0, 6, 1, 27⟩, ⟨28, 1, 1, 9, 0, 0, 0, 0, 1, 8, 1, 57⟩] ∧
    (⟨28, 1, 1, 9, 0, 0, 0, 0, 1, 8, 1, 57⟩ : ZpaqBlockHeader).nComponents = 1 ∧
    extractUnmodeledBytes zpaqCorruptThenModeled =
      .error (.Corrupt "missing segment or end-of-block marker") ∧
    extractUnmodeledBytes zpaqCorruptThenModeled ≠
      .error (.InvalidFormat "modeled blocks are not supported yet; use zpaq -m0 for now") := by
  refine ⟨by decide, rfl, by decide, by decide⟩

/-- Claim C7 (amended): segment extraction proceeds only for blocks with
`n_components = 0` — whenever the extraction loop itself parses a block
header whose `n_components ≠ 0`, it fails with the `InvalidFormat` modeled-
blocks error.  (An error raised while decoding an earlier block's segments
can preempt this with a different error.) -/
theorem c7_modeled_block_rejected (data : List Nat) (f i bidx : Nat)
    (acc : List ZpaqExtractedSegment) (at1 : Nat) (hdr : ZpaqBlockHeader) (consumed : Nat)
    (hguard : i + 16 + 2 < data.length)
    (hmagic : findMagicFrom data i = some at1)
    (hparse : parseBlockHeader data at1 = .ok (some (hdr, consumed)))
    (hn : hdr.nComponents ≠ 0) :
    extractLoop data (f + 1) i bidx acc =
      .error (.InvalidFormat "modeled blocks are not supported yet; use zpaq -m0 for now") := by
  simp only [extractLoop, hmagic, hparse]
  rw [if_neg (not_not_intro hguard), if_pos hn]

/-- Witness for the amended C7: a buffer holding just a modeled block. -/
theorem c7_modeled_block_rejected_witness :
    extractUnmodeledBytes zpaqModeledBlock =
      .error (.InvalidFormat "modeled blocks are not supported yet; use zpaq -m0 for now") :=
  c7_modeled_block_rejected zpaqModeledBlock 29 0 0 [] 0
    ⟨0, 1, 1, 9, 0, 0, 0, 0, 1, 8, 1, 29⟩ 29 (by decide) (by decide) (by decide) (by decide)

/-- Claim C8: scanning the minimal ZPAQ buffer — 16-byte magic, level 2,
zpaql_type 1, `hsize = 7` (u16 LE), five zero context bytes, a zero COMP
terminator and a zero HCOMP terminator — returns exactly one block header,
with `n_components = 0` and `hsize = 7`. -/
theorem c8_minimal_header :
    inspectBytes (MAGIC16 ++ [2, 1, 7, 0, 0, 0, 0, 0, 0, 0, 0]) =
      .ok [⟨0, 2, 1, 7, 0, 0, 0, 0, 0, 6, 1, 27⟩] ∧
    (⟨0, 2, 1, 7, 0, 0, 0, 0, 0, 6, 1, 27⟩ : ZpaqBlockHeader).nComponents = 0 ∧
    (⟨0, 2, 1, 7, 0, 0, 0, 0, 0, 6, 1, 27⟩ : ZpaqBlockHeader).hsize = 7 := by
  refine ⟨by decide, rfl, rfl⟩

/-- Claim C9: when the unmodeled-segment postprocessor is in state 0 and
receives a non-negative type byte `t`, the new state is `t + 1`, and the
transition is legal exactly for the resulting values 1 (pass-through) and 2
(program) — that is, for `t ∈ {0, 1}`; any other byte fails with
`Corrupt("unknown postprocessing type")`. -/
theorem c9_postprocessor_type (ph pm t : Nat) (ht : t < 256) :
    ((t = 0 ∨ t = 1) → ppWrite ⟨0, 0, false, ph, pm⟩ (Int.ofNat t) =
      .ok (⟨t + 1, 0, false, ph, pm⟩, [])) ∧
    (¬(t = 0 ∨ t = 1) → ppWrite ⟨0, 0, false, ph, pm⟩ (Int.ofNat t) =
      .error (.Corrupt "unknown postprocessing type")) := by
  have h0 : ppWrite ⟨0, 0, false, ph, pm⟩ (Int.ofNat t) =
      (if (Int.ofNat t : Int) < 0 then .error (.Corrupt "unexpected EOS in postprocessor header")
       else if ((Int.ofNat t).toNat % 256 + 1) % 256 = 1 ∨ ((Int.ofNat t).toNat % 256 + 1) % 256 = 2
       then .ok (⟨((Int.ofNat t).toNat % 256 + 1) % 256, 0, false, ph, pm⟩, [])
       else .error (.Corrupt "unknown postprocessing type")) := rfl
  have htn : (Int.ofNat t).toNat = t := rfl
  have hnn : ¬ Int.ofNat t < 0 := by
    have hcast : Int.ofNat t = (t : Int) := rfl
    rw [hcast]
    omega
  rw [h0, if_neg hnn, htn, Nat.mod_eq_of_lt ht]
  constructor
  · rintro (rfl | rfl) <;> simp
  · intro h
    rw [if_neg (by omega)]

/-- Witness for C9 at `t = 5`. -/
theorem c9_postprocessor_type_witness :
    ppWrite ⟨0, 0, false, 0, 0⟩ (Int.ofNat 5) =
      .error (.Corrupt "unknown postprocessing type") :=
  (c9_postprocessor_type 0 0 5 (by decide)).2 (by decide)

/-- Claim C10: `extract_unmodeled_bytes` is all-or-nothing — an error result
carries no segments at all; concretely, a buffer whose first block extracts
to one segment on its own, followed by a modeled block, returns only the
`InvalidFormat` error with none of the already-decoded segments. -/
theorem c10_all_or_nothing :
    (∀ (data : List Nat) (e : ZparsError) (segs : List ZpaqExtractedSegment),
      extractUnmodeledBytes data = .error e → extractUnmodeledBytes data ≠ .ok segs) ∧
    extractUnmodeledBytes zpaqBlockOneSeg = .ok [⟨0, [97], [], [104, 105], none⟩] ∧
    extractUnmodeledBytes (zpaqBlockOneSeg ++ zpaqModeledBlock) =
      .error (.InvalidFormat "modeled blocks are not supported yet; use zpaq -m0 for now") := by
  refine ⟨?_, by decide, by decide⟩
  intro data e segs he hok
  rw [he] at hok
  exact Except.noConfusion hok

/-- Witness for C10: the combined buffer's error result is not any `ok`. -/
theorem c10_all_or_nothing_witness :
    extractUnmodeledBytes (zpaqBlockOneSeg ++ zpaqModeledBlock) ≠
      .ok [⟨0, [97], [], [104, 105], none⟩] :=
  c10_all_or_nothing.1 (zpaqBlockOneSeg ++ zpaqModeledBlock)
    (.InvalidFormat "modeled blocks are not supported yet; use zpaq -m0 for now")
    [⟨0, [97], [], [104, 105], none⟩] (by decide)

end Zpars
